import Mathlib

/-!
Shallow embedding of the bibleTransliteration repository.

The embedding covers:
  * `app/transliteration.py` — the online annotation/rendering pipeline
    (`transliterate_chapter` and its helpers);
  * `build_sound_annotations.py` — the offline sound-pattern precomputation
    (`build_sound_annotations` and its helpers);
  * the two process-wide lazy caches (`get_global_strongs_counts`,
    `get_verses_by_book`), modelled with explicit cache state.

Verse text is modelled as `List Char` (`Str`).  The specific regular
expressions the source uses are implemented directly as scanners over
`List Char`, with Python's leftmost-match `re.search` semantics; the
character classes (`\w`, `\s`, `[A-Za-z]`, `\d`) are modelled over the ASCII
fragment, which is the fragment all reference markers, HTML markup and the
stop-word lists live in.  Fallible code (`alt_match.group(1)` on a pattern
with no capturing group, `int(_, 16)` on a non-hex slice) is modelled with
`Except String`.  Python machine floats in the colour code are modelled with
exact rational arithmetic.
-/

set_option maxRecDepth 100000

/-- Verse text and all other Python strings are modelled as lists of characters. -/
abbrev Str := List Char

/-- Shorthand turning a Lean string literal into the `Str` model. -/
def S (s : String) : Str := s.toList

/-- The apostrophe character (written via its code point). -/
def apos : Char := Char.ofNat 39

/-- Python regex `\w` (word character), ASCII fragment: letters, digits, underscore. -/
def isWordChar (c : Char) : Bool := c.isAlphanum || c = '_'

/-- Word-character test on an optional character (`none` = before start / past end). -/
def isWordOpt : Option Char → Bool
  | some c => isWordChar c
  | none => false

/-- Python regex `\b`: a word boundary sits between two positions exactly when
one side is a word character and the other is not. -/
def isBoundary (prev cur : Option Char) : Bool := isWordOpt prev != isWordOpt cur

/-- Python regex `\s`, ASCII fragment: space, tab, newline, carriage return,
vertical tab, form feed. -/
def isSpaceChar (c : Char) : Bool :=
  c = ' ' || c = '\t' || c = '\n' || c = '\r' || c = Char.ofNat 11 || c = Char.ofNat 12

/-- The character class `[\w']` used by the word-capture before a marker. -/
def wordApoChar (c : Char) : Bool := isWordChar c || c = apos

/-- Lexicographic (code-point) comparison of Python strings, as used by
`sorted` on tie-broken `(−count, id)` keys. -/
def strLtB : Str → Str → Bool
  | [], [] => false
  | [], _ :: _ => true
  | _ :: _, [] => false
  | a :: as, b :: bs =>
    if a.toNat < b.toNat then true
    else if a.toNat = b.toNat then strLtB as bs
    else false

/-- Decimal digit character for `d < 10`. -/
def digitChar (d : Nat) : Char := Char.ofNat (48 + d)

/-- Auxiliary decimal printer accumulating digits on the right; the first
argument is recursion fuel (any fuel at least `n` is sufficient, and the
wrapper always supplies enough). -/
def natToStrAux : Nat → Nat → Str → Str
  | 0, n, acc => digitChar n :: acc
  | fuel + 1, n, acc =>
    if n < 10 then digitChar n :: acc
    else natToStrAux fuel (n / 10) (digitChar (n % 10) :: acc)

/-- Python `str(n)` for a natural number. -/
def natToStr (n : Nat) : Str := natToStrAux n n []

/-- Python `int(s)` on a digit string (used only on keys produced by `str(n)`). -/
def strToNatD (s : Str) : Nat := s.foldl (fun a c => a * 10 + (c.toNat - 48)) 0

/-- `html.escape` on one character (`quote=True`, the default used by the source). -/
def escChar (c : Char) : Str :=
  if c = '&' then S "&amp;"
  else if c = '<' then S "&lt;"
  else if c = '>' then S "&gt;"
  else if c = '"' then S "&quot;"
  else if c = apos then S "&#x27;"
  else [c]

/-- Python `html.escape(s, quote=True)`. -/
def htmlEscape (s : Str) : Str := s.foldr (fun c acc => escChar c ++ acc) []

/-- Python `str.strip()` (ASCII whitespace on both ends). -/
def stripWs (s : Str) : Str :=
  ((s.dropWhile isSpaceChar).reverse.dropWhile isSpaceChar).reverse

/-- Python `str.lower()` on the ASCII fragment. -/
def lowerStr (s : Str) : Str := s.map Char.toLower

/-- Python `str.split()` with no argument: maximal runs of non-whitespace
(fuel-driven; the wrapper supplies the input length, which is sufficient). -/
def wordsOfAux : Nat → Str → List Str
  | _, [] => []
  | 0, s => [s]
  | fuel + 1, c :: rest =>
    if isSpaceChar c then wordsOfAux fuel rest
    else (c :: rest.takeWhile (fun x => !isSpaceChar x))
      :: wordsOfAux fuel (rest.dropWhile (fun x => !isSpaceChar x))

/-- Python `str.split()` with no argument. -/
def wordsOf (s : Str) : List Str := wordsOfAux s.length s

/-- Python `pat in s` (substring containment). -/
def containsSubstr (pat : Str) : Str → Bool
  | [] => pat.isEmpty
  | c :: rest => pat.isPrefixOf (c :: rest) || containsSubstr pat rest

/-- Python `s.replace(pat, repl)`: replace all non-overlapping occurrences,
left to right (the source only ever calls it with a non-empty `pat`).
Fuel-driven; the wrapper supplies the input length, which is sufficient. -/
def replaceAllAux (pat repl : Str) : Nat → Str → Str
  | _, [] => []
  | 0, s => s
  | fuel + 1, c :: rest =>
    if !pat.isEmpty && pat.isPrefixOf (c :: rest) then
      repl ++ replaceAllAux pat repl fuel ((c :: rest).drop pat.length)
    else
      c :: replaceAllAux pat repl fuel rest

/-- Python `s.replace(pat, repl)` (see `replaceAllAux`). -/
def replaceAll (pat repl s : Str) : Str := replaceAllAux pat repl s.length s

/-- Join a list of strings with a separator (Python `sep.join(parts)`). -/
def joinWith (sep : Str) : List Str → Str
  | [] => []
  | [x] => x
  | x :: y :: rest => x ++ sep ++ joinWith sep (y :: rest)

/-- Parse a reference marker `{[HG]\d+}` at the very start of `s`; on success
return the captured id (prefix and digits) and the rest of the text after the
closing brace.  This is the anchored form of `STRONGS_REGEX = r'{([HG]\d+)}'`. -/
def parseMarkerAt : Str → Option (Str × Str)
  | c :: p :: rest =>
    if c = '{' && (p = 'H' || p = 'G') then
      if (rest.takeWhile Char.isDigit).isEmpty then none
      else
        match rest.dropWhile Char.isDigit with
        | '}' :: r2 => some (p :: rest.takeWhile Char.isDigit, r2)
        | _ => none
    else none
  | _ => none

/-- `STRONGS_REGEX.findall(text)`: all marker ids, left to right,
non-overlapping (the body of `extract_strongs_numbers`).  Fuel-driven; a
marker consumes at least four characters, so the input length is sufficient
fuel. -/
def extractStrongsAux : Nat → Str → List Str
  | _, [] => []
  | 0, _ => []
  | fuel + 1, c :: rest =>
    match parseMarkerAt (c :: rest) with
    | some (sid, r2) => sid :: extractStrongsAux fuel r2
    | none => extractStrongsAux fuel rest

/-- `extract_strongs_numbers(text)` (see `extractStrongsAux`). -/
def extract_strongs_numbers (s : Str) : List Str := extractStrongsAux s.length s

/-- The literal text of a marker for id `num`: `{num}`. -/
def markerStr (num : Str) : Str := '{' :: (num ++ ['}'])

/-- Does some well-formed plain marker `{[HG]\d+}` start at the head of `s`? -/
def startsAnyMarker (s : Str) : Bool := (parseMarkerAt s).isSome

/-- Does the text contain any plain marker substring `{[HG]\d+}`? -/
def containsMarker : Str → Bool
  | [] => false
  | c :: rest => startsAnyMarker (c :: rest) || containsMarker rest

/-- Scanner for `re.search(r'\b([\w\']*)\{num\}', text)`: at each position,
left to right, a match requires a word boundary, then the maximal run of
`[\w']` characters, then the literal marker; the captured group is the run.
(The run is forced to be maximal because `{` is not in the class.) -/
def wordBeforeGo (num : Str) : Option Char → Str → Option Str
  | _, [] => none
  | prev, c :: rest =>
    if isBoundary prev (some c) then
      let run := (c :: rest).takeWhile wordApoChar
      if (markerStr num).isPrefixOf ((c :: rest).drop run.length) then some run
      else wordBeforeGo num (some c) rest
    else wordBeforeGo num (some c) rest

/-- The `match` of line 319 of `transliteration.py`: the word (possibly empty)
captured right before the marker `{num}`, or `none` when the pattern does not
match anywhere. -/
def wordBefore (num text : Str) : Option Str := wordBeforeGo num none text

/-- Scanner for line 320's `re.search(r'{num\}\'{[HG]\d+}', text)`: the marker,
an apostrophe, then a second well-formed marker.  The pattern contains no
capturing group, which is why `alt_match.group(1)` on line 322 raises. -/
def hasAltPattern (num : Str) : Str → Bool
  | [] => false
  | c :: rest =>
    (let pre := markerStr num ++ [apos]
     pre.isPrefixOf (c :: rest) && startsAnyMarker ((c :: rest).drop pre.length))
    || hasAltPattern num rest

/-- One attempt of the phrase pattern
`re.search(r'\b' + re.escape(tl) + r'\s*\{num\}', text, re.IGNORECASE)` at a
single position: the literal `tl` (case-insensitively), then the maximal run
of whitespace, then the literal marker (case-insensitively).  Returns the whole
match (`group(0)`). -/
def tryPhraseAt (tl num : Str) (s : Str) : Option Str :=
  if tl.length ≤ s.length && (lowerStr (s.take tl.length) == lowerStr tl) then
    let s2 := s.drop tl.length
    let ws := s2.takeWhile isSpaceChar
    let s3 := s2.drop ws.length
    let mk := markerStr num
    if mk.length ≤ s3.length && (lowerStr (s3.take mk.length) == lowerStr mk) then
      some (s.take (tl.length + ws.length + mk.length))
    else none
  else none

/-- Leftmost-match scanner for the phrase pattern (see `tryPhraseAt`). -/
def phraseMatchGo (tl num : Str) : Option Char → Str → Option Str
  | _, [] => none
  | prev, c :: rest =>
    match (if isBoundary prev (some c) then tryPhraseAt tl num (c :: rest) else none) with
    | some m => some m
    | none => phraseMatchGo tl num (some c) rest

/-- The `phrase_match` of line 339: leftmost match of the phrase pattern. -/
def find_phrase_match (text tl num : Str) : Option Str := phraseMatchGo tl num none text

/-- One pass of `re.sub(r'\{[HG]\d+\}', '', t)` (line 398): delete every
well-formed plain marker, scanning left to right, non-overlapping.
Fuel-driven; the wrapper supplies the input length, which is sufficient. -/
def stripPlainMarkersAux : Nat → Str → Str
  | _, [] => []
  | 0, s => s
  | fuel + 1, c :: rest =>
    match parseMarkerAt (c :: rest) with
    | some (_, r2) => stripPlainMarkersAux fuel r2
    | none => c :: stripPlainMarkersAux fuel rest

/-- Line 398's stripping pass (see `stripPlainMarkersAux`). -/
def stripPlainMarkers (s : Str) : Str := stripPlainMarkersAux s.length s

/-- Parse the parenthesised variant `{([HG]\d+)}` at the start of `s`
(line 399's pattern, anchored). -/
def parseParenMarkerAt : Str → Option Str
  | c :: o :: p :: rest =>
    if c = '{' && o = '(' && (p = 'H' || p = 'G') then
      if (rest.takeWhile Char.isDigit).isEmpty then none
      else
        match rest.dropWhile Char.isDigit with
        | ')' :: '}' :: r2 => some r2
        | _ => none
    else none
  | _ => none

/-- One pass of `re.sub(r'\{(\([HG]\d+\))\}', '', t)` (line 399). -/
def stripParenMarkersAux : Nat → Str → Str
  | _, [] => []
  | 0, s => s
  | fuel + 1, c :: rest =>
    match parseParenMarkerAt (c :: rest) with
    | some r2 => stripParenMarkersAux fuel r2
    | none => c :: stripParenMarkersAux fuel rest

/-- Line 399's stripping pass (see `stripParenMarkersAux`). -/
def stripParenMarkers (s : Str) : Str := stripParenMarkersAux s.length s

/-- Parse the half-parenthesised variant `{[HG]\d+)}` at the start of `s`
(line 400's pattern, anchored). -/
def parseHalfParenMarkerAt : Str → Option Str
  | c :: p :: rest =>
    if c = '{' && (p = 'H' || p = 'G') then
      if (rest.takeWhile Char.isDigit).isEmpty then none
      else
        match rest.dropWhile Char.isDigit with
        | ')' :: '}' :: r2 => some r2
        | _ => none
    else none
  | _ => none

/-- One pass of `re.sub(r'\{[HG]\d+\)\}', '', t)` (line 400). -/
def stripHalfParenMarkersAux : Nat → Str → Str
  | _, [] => []
  | 0, s => s
  | fuel + 1, c :: rest =>
    match parseHalfParenMarkerAt (c :: rest) with
    | some r2 => stripHalfParenMarkersAux fuel r2
    | none => c :: stripHalfParenMarkersAux fuel rest

/-- Line 400's stripping pass (see `stripHalfParenMarkersAux`). -/
def stripHalfParenMarkers (s : Str) : Str := stripHalfParenMarkersAux s.length s

/-- Lines 398–400 of `transliterate_chapter`: the three stripping passes
applied to the processed verse text, in source order. -/
def strip_residual_markers (t : Str) : Str :=
  stripHalfParenMarkers (stripParenMarkers (stripPlainMarkers t))

/-- Every left brace in the text opens a well-formed plain marker
`{[HG]\d+}` (fuel-driven, mirroring the stripping scan). -/
def bracesOnlyMarkersAux : Nat → Str → Bool
  | _, [] => true
  | 0, _ => true
  | fuel + 1, c :: rest =>
    if c = '{' then
      match parseMarkerAt (c :: rest) with
      | some (_, r2) => bracesOnlyMarkersAux fuel r2
      | none => false
    else bracesOnlyMarkersAux fuel rest

/-- Every left brace in the text opens a well-formed plain marker. -/
def bracesOnlyMarkers (s : Str) : Bool := bracesOnlyMarkersAux s.length s

/-! SHA-256 over byte lists, with words as `Nat` reduced mod `2 ^ 32`.
`generate_repeat_colors` hashes the reference id with `hashlib.sha256`. -/

/-- `2 ^ 32`, the word modulus of SHA-256. -/
def M32 : Nat := 4294967296

/-- Right rotation of a 32-bit word. -/
def rotr32 (x k : Nat) : Nat := ((x >>> k) ||| (x <<< (32 - k))) % M32

/-- The 64 SHA-256 round constants. -/
def sha256K : List Nat := [
  1116352408, 1899447441, 3049323471, 3921009573, 961987163, 1508970993,
  2453635748, 2870763221, 3624381080, 310598401, 607225278, 1426881987,
  1925078388, 2162078206, 2614888103, 3248222580, 3835390401, 4022224774,
  264347078, 604807628, 770255983, 1249150122, 1555081692, 1996064986,
  2554220882, 2821834349, 2952996808, 3210313671, 3336571891, 3584528711,
  113926993, 338241895, 666307205, 773529912, 1294757372, 1396182291,
  1695183700, 1986661051, 2177026350, 2456956037, 2730485921, 2820302411,
  3259730800, 3345764771, 3516065817, 3600352804, 4094571909, 275423344,
  430227734, 506948616, 659060556, 883997877, 958139571, 1322822218,
  1537002063, 1747873779, 1955562222, 2024104815, 2227730452, 2361852424,
  2428436474, 2756734187, 3204031479, 3329325298]

/-- The SHA-256 initial hash state. -/
def sha256H0 : List Nat :=
  [1779033703, 3144134277, 1013904242, 2773480762,
   1359893119, 2600822924, 528734635, 1541459225]

/-- Big-endian 8-byte encoding of a bit length. -/
def be8 (n : Nat) : List Nat :=
  [n >>> 56 % 256, n >>> 48 % 256, n >>> 40 % 256, n >>> 32 % 256,
   n >>> 24 % 256, n >>> 16 % 256, n >>> 8 % 256, n % 256]

/-- SHA-256 message padding. -/
def sha256pad (msg : List Nat) : List Nat :=
  msg ++ [0x80] ++ List.replicate ((119 - msg.length % 64) % 64) 0 ++ be8 (8 * msg.length)

/-- Group bytes into big-endian 32-bit words. -/
def bytesToWords : List Nat → List Nat
  | a :: b :: c :: d :: rest => (((a * 256 + b) * 256 + c) * 256 + d) :: bytesToWords rest
  | _ => []

/-- Group a word list into 16-word blocks (fuel-driven; the wrapper supplies
the list length, which is sufficient). -/
def chunks16Aux : Nat → List Nat → List (List Nat)
  | _, [] => []
  | 0, _ => []
  | fuel + 1, w :: rest => ((w :: rest).take 16) :: chunks16Aux fuel ((w :: rest).drop 16)

/-- Group a word list into 16-word blocks. -/
def chunks16 (ws : List Nat) : List (List Nat) := chunks16Aux ws.length ws

/-- SHA-256 lowercase sigma-0. -/
def ssig0 (x : Nat) : Nat := (rotr32 x 7) ^^^ (rotr32 x 18) ^^^ (x >>> 3)

/-- SHA-256 lowercase sigma-1. -/
def ssig1 (x : Nat) : Nat := (rotr32 x 17) ^^^ (rotr32 x 19) ^^^ (x >>> 10)

/-- SHA-256 uppercase Sigma-0. -/
def bsig0 (x : Nat) : Nat := (rotr32 x 2) ^^^ (rotr32 x 13) ^^^ (rotr32 x 22)

/-- SHA-256 uppercase Sigma-1. -/
def bsig1 (x : Nat) : Nat := (rotr32 x 6) ^^^ (rotr32 x 11) ^^^ (rotr32 x 25)

/-- SHA-256 choose function. -/
def chFn (x y z : Nat) : Nat := (x &&& y) ^^^ ((x ^^^ 0xffffffff) &&& z)

/-- SHA-256 majority function. -/
def majFn (x y z : Nat) : Nat := (x &&& y) ^^^ (x &&& z) ^^^ (y &&& z)

/-- Extend a 16-word block by one schedule word. -/
def schedStep (w : List Nat) : List Nat :=
  w ++ [(ssig1 (w.getD (w.length - 2) 0) + w.getD (w.length - 7) 0
         + ssig0 (w.getD (w.length - 15) 0) + w.getD (w.length - 16) 0) % M32]

/-- The full 64-word message schedule of a block. -/
def schedule (w : List Nat) : List Nat := (List.range 48).foldl (fun acc _ => schedStep acc) w

/-- One SHA-256 compression round. -/
def compressRound (st : List Nat) (kw : Nat × Nat) : List Nat :=
  match st with
  | [a, b, c, d, e, f, g, hh] =>
    (((hh + bsig1 e + chFn e f g + kw.1 + kw.2) % M32 + (bsig0 a + majFn a b c) % M32) % M32)
      :: a :: b :: c :: ((d + (hh + bsig1 e + chFn e f g + kw.1 + kw.2) % M32) % M32)
      :: e :: f :: [g]
  | _ => st

/-- Process one 16-word block into the running hash state. -/
def processChunk (h : List Nat) (chunk : List Nat) : List Nat :=
  ((h.zip ((sha256K.zip (schedule chunk)).foldl compressRound h)).map
    (fun p => (p.1 + p.2) % M32))

/-- SHA-256 digest (32 bytes) of a byte list. -/
def sha256bytes (msg : List Nat) : List Nat :=
  (((chunks16 (bytesToWords (sha256pad msg))).foldl processChunk sha256H0).map
    (fun wd => [wd >>> 24 % 256, wd >>> 16 % 256, wd >>> 8 % 256, wd % 256])).join

/-! Colour derivation (`hls_to_hex`, `generate_repeat_colors`, `is_light_color`).
Python float arithmetic is modelled by exact rationals. -/

/-- Python `hue % 1.0` for a rational hue. -/
def hueFrac (h : ℚ) : ℚ := h - (⌊h⌋ : ℤ)

/-- `colorsys._v(m1, m2, hue)`. -/
def hlsV (m1 m2 hue : ℚ) : ℚ :=
  if hueFrac hue < 1/6 then m1 + (m2 - m1) * hueFrac hue * 6
  else if hueFrac hue < 1/2 then m2
  else if hueFrac hue < 2/3 then m1 + (m2 - m1) * (2/3 - hueFrac hue) * 6
  else m1

/-- `colorsys.hls_to_rgb`. -/
def hls_to_rgb (h l s : ℚ) : ℚ × ℚ × ℚ :=
  if s = 0 then (l, l, l)
  else
    ((fun m2 => (fun m1 =>
        (hlsV m1 m2 (h + 1/3), hlsV m1 m2 h, hlsV m1 m2 (h - 1/3)))
      (2 * l - m2))
     (if l ≤ 1/2 then l * (1 + s) else l + s - l * s))

/-- Lowercase hex digit. -/
def hexDigit (n : Nat) : Char := if n < 10 then Char.ofNat (48 + n) else Char.ofNat (87 + n)

/-- Python `'{:02x}'.format(v)` for a byte value. -/
def hexByte (n : Nat) : Str := [hexDigit (n / 16 % 16), hexDigit (n % 16)]

/-- Python `int(r * 255)` for a non-negative rational colour channel. -/
def ratByte (r : ℚ) : Nat := (⌊r * 255⌋).toNat

/-- `hls_to_hex(h, l, s)` of the source. -/
def hls_to_hex (h l s : ℚ) : Str :=
  match hls_to_rgb h l s with
  | (r, g, b) => '#' :: (hexByte (ratByte r) ++ hexByte (ratByte g) ++ hexByte (ratByte b))

/-- `generate_repeat_colors(strongs_number)`: deterministic base and accent
colours derived from the SHA-256 digest of the id. -/
def generate_repeat_colors (strongs_number : Str) : Str × Str :=
  ((fun digest =>
    ((fun hue saturation lightness =>
        (hls_to_hex hue lightness saturation,
         hls_to_hex hue (min (85/100) (lightness + 22/100)) (min (45/100) (saturation + 1/10))))
      ((digest.getD 0 0 : ℚ) / 255)
      (35/100 + ((digest.getD 1 0 : ℚ) / 255) * (2/10))
      (35/100 + ((digest.getD 2 0 : ℚ) / 255) * (15/100))))
   (sha256bytes (strongs_number.map Char.toNat)))

/-- Value of one hex digit character (as accepted by `int(_, 16)`). -/
def hexDigitVal (c : Char) : Option Nat :=
  if '0' ≤ c ∧ c ≤ '9' then some (c.toNat - 48)
  else if 'a' ≤ c ∧ c ≤ 'f' then some (c.toNat - 87)
  else if 'A' ≤ c ∧ c ≤ 'F' then some (c.toNat - 55)
  else none

/-- Python `int(s, 16)` on a slice: fails on the empty string or a non-hex
character (digits-only model of `int`). -/
def parseHex (s : Str) : Option Nat :=
  if s.isEmpty then none
  else s.foldl (fun acc c =>
    match acc, hexDigitVal c with
    | some a, some d => some (a * 16 + d)
    | _, _ => none) (some 0)

/-- `is_light_color(hex_color)`: parses `hex_color[i:i+2]` for `i in (1, 3, 5)`
as hex ints, converts to HLS, and tests lightness `l > 0.65`; raises
`ValueError` on a slice that is empty or not hex.  (`colorsys.rgb_to_hls`
lightness is `(max + min) / 2`.) -/
def is_light_color (hex_color : Str) : Except Str Bool :=
  match parseHex ((hex_color.drop 1).take 2), parseHex ((hex_color.drop 3).take 2),
      parseHex ((hex_color.drop 5).take 2) with
  | some r, some g, some b =>
    .ok (decide ((((max (r : ℚ) (max (g : ℚ) (b : ℚ))) + (min (r : ℚ) (min (g : ℚ) (b : ℚ)))) / 510) > 65/100))
  | _, _, _ => .error (S "ValueError: invalid literal for int() with base 16")

/-! Data model for `transliterate_chapter` and its helpers. -/

/-- A corpus verse record (`kjv_path['verses']` entries). -/
structure Verse where
  book_name : Str
  chapter : Nat
  verse : Nat
  text : Str

/-- The corpus (`kjv_path`). -/
structure KjvData where
  verses : List Verse

/-- A lexicon entry (`strongs_path` list element); `lemmaStr` models the
source's `lemma` key (a Lean keyword). -/
structure StrongsEntry where
  number : Str
  xlit : Option Str
  lemmaStr : Option Str
  pronounce : Option Str
  description : Option Str

/-- A user override store entry (`strongs_dict_path` value): a translations
list and an optional colour (absent and `null` both modelled as `none`). -/
structure OverrideEntry where
  translations : List Str
  color : Option Str

/-- An entry of `replacement_mapping`. -/
structure XlitInfo where
  xlit : Str
  color : Option Str
  lemmaStr : Str
  pronounce : Str
  description : Str
  root : Str

/-- The context dict fed to `classify_uncommon`. -/
structure UCContext where
  strongs : Str
  global_count : Nat
  unit_peak : Nat
  lemmaStr : Str

/-- The dict returned by `classify_uncommon`. -/
structure UCResult where
  is_uncommon : Bool
  rule : Option Str
  global_count : Nat
  unit_peak : Nat

/-- The `meta` dict assembled for `build_span`; Python `None` and `''` are
both falsy there and are modelled as the empty string. -/
structure MetaInfo where
  xlit : Str
  lemmaStr : Str
  pronounce : Str
  description : Str
  root : Str
  gloss : Str

/-- A literary unit as consumed by `_unit_bounds`. -/
structure RangePoint where
  chapter : Option Nat
  verse : Option Nat

/-- A literary unit (`active_units` element). -/
structure LUnit where
  start_chapter : Option Nat
  end_chapter : Option Nat
  start_verse_absolute : Option Nat
  end_verse_absolute : Option Nat
  range_start : Option RangePoint
  range_end : Option RangePoint

/-- First-match association-list lookup, modelling `dict.get` on dicts whose
keys are unique. -/
def lookupA {β : Type} (l : List (Str × β)) (k : Str) : Option β :=
  match l.find? (fun p => p.1 == k) with
  | some p => some p.2
  | none => none

/-- Python `x or y` on strings (empty string is falsy). -/
def pyOrS (a b : Str) : Str := if a.isEmpty then b else a

/-- `None`-defaulting string access (`entry.get(k) or ''` style). -/
def optS (o : Option Str) : Str := o.getD []

/-- Truthiness of an optional string (`None` and `''` falsy). -/
def truthyS (o : Option Str) : Bool :=
  match o with
  | some s => !s.isEmpty
  | none => false

/-- Python `x or y or d` on optional ints where `None` and `0` are falsy. -/
def pyOrND (a b : Option Nat) (d : Nat) : Nat :=
  match a with
  | some n => if n = 0 then (match b with | some m => if m = 0 then d else m | none => d) else n
  | none => match b with | some m => if m = 0 then d else m | none => d

/-- `{entry.get('number'): entry for entry in strongs_path}`: a dict
comprehension, so a later entry with the same number overwrites an earlier
one; lookup therefore finds the last matching entry. -/
def strongs_lookup (lex : List StrongsEntry) (num : Str) : Option StrongsEntry :=
  lex.reverse.find? (fun e => e.number == num)

/-- `safe_attr(val)`: empty for `None`, else `html.escape(str(val), quote=True)`. -/
def safe_attr (val : Option Str) : Str :=
  match val with
  | none => []
  | some s => htmlEscape s

/-- Vowel characters removed by `consonant_key`. -/
def isVowel (c : Char) : Bool :=
  c = 'A' || c = 'E' || c = 'I' || c = 'O' || c = 'U' ||
  c = 'a' || c = 'e' || c = 'i' || c = 'o' || c = 'u'

/-- `strip_diacritics`: NFKD-normalise then drop combining marks; the identity
on the ASCII fragment modelled here. -/
def strip_diacritics (s : Str) : Str := s

/-- `consonant_key(text)`: keep letters, drop vowels, uppercase. -/
def consonant_key (s : Str) : Str :=
  (((strip_diacritics s).filter Char.isAlpha).filter (fun c => !isVowel c)).map Char.toUpper

/-- `derive_root(entry, fallback_xlit)`; `none` plays the role of the `{}`
entry default. -/
def derive_root (entry : Option StrongsEntry) (fallback_xlit : Str) : Str :=
  ((fun root =>
      if root.isEmpty then
        (consonant_key (pyOrS fallback_xlit (optS (entry.bind StrongsEntry.xlit)))).take 6
      else root.take 6)
    (consonant_key (optS (entry.bind StrongsEntry.lemmaStr))))

/-- Lines 188–200: `replacement_mapping`, built by iterating the user override
store in insertion order and keeping ids whose lexicon entry has a truthy
romanization. -/
def replacement_mapping (overrides : List (Str × OverrideEntry)) (lex : List StrongsEntry) :
    List (Str × XlitInfo) :=
  overrides.filterMap (fun p =>
    match strongs_lookup lex p.1 with
    | some e =>
      match e.xlit with
      | some x =>
        if x.isEmpty then none
        else some (p.1,
          ⟨x, p.2.color, optS e.lemmaStr, optS e.pronounce, optS e.description,
           derive_root (some e) x⟩)
      | none => none
    | none => none)

/-- The fixed stop-list of lines 142–148 (the Python set literal repeats
`"G2532"`; list membership is unaffected). -/
def stop_strongs : List Str :=
  [S "H1931", S "H1933", S "H3068", S "H853", S "H854", S "H3588", S "H834", S "H4480",
   S "H413", S "H5921", S "H5973", S "H1571", S "H518", S "H3808", S "H1961", S "H1992",
   S "G2532", S "G1161", S "G1510", S "G3588", S "G2532", S "G3754", S "G3777", S "G1063",
   S "G1223", S "G2531", S "G1722", S "G1519", S "G1909", S "G3326", S "G3756", S "G1163"]

/-- The English stop-word set of lines 149–155. -/
def english_stopwords : List Str :=
  [S "a", S "an", S "and", S "as", S "at", S "but", S "by", S "for", S "from", S "he", S "her",
   S "his", S "i", S "in", S "is", S "it", S "nor", S "not", S "of", S "on", S "or", S "our",
   S "she", S "so", S "that", S "the", S "their", S "them", S "then", S "they", S "this",
   S "those", S "to", S "was", S "we", S "were", S "when", S "which", S "who", S "with",
   S "you", S "your"]

/-- One step of `collections.Counter`: increment the count of `x`, keeping
first-encounter key order. -/
def bumpCounter (l : List (Str × Nat)) (x : Str) : List (Str × Nat) :=
  match l with
  | [] => [(x, 1)]
  | (k, v) :: rest => if k == x then (k, v + 1) :: rest else (k, v) :: bumpCounter rest x

/-- `Counter(occs)` as an association list in first-encounter key order. -/
def counterOf (occs : List Str) : List (Str × Nat) := occs.foldl bumpCounter []

/-- Stable insertion used to model Python's stable `sorted`: insert before the
first element that must come strictly after `a`. -/
def insertStable {α : Type} (lt : α → α → Bool) (a : α) : List α → List α
  | [] => [a]
  | b :: bs => if lt a b then a :: b :: bs else b :: insertStable lt a bs

/-- Python `sorted(l, key=...)` for a strict comparison `lt`: stable, and
sorted so that `lt y x = false` whenever `x` appears before `y`. -/
def pySorted {α : Type} (lt : α → α → Bool) (l : List α) : List α :=
  l.foldl (fun acc a => insertStable lt a acc) []

/-- The sort key of line 212: `(-count, id)` ordered lexicographically, as a
strict comparison on `(id, count)` pairs. -/
def repeatKeyLt (p q : Str × Nat) : Bool :=
  q.2 < p.2 || (p.2 == q.2 && strLtB p.1 q.1)

/-- Lines 207–211: candidates occurring at least `min_repeat_count = 3` times
and not in the stop-list. -/
def repeated_candidates (occs : List Str) : List (Str × Nat) :=
  (counterOf occs).filter (fun p => decide (3 ≤ p.2) && !(stop_strongs.contains p.1))

/-- Line 212: the candidates sorted by descending count, ties by ascending id. -/
def repeated_sorted (occs : List Str) : List (Str × Nat) :=
  pySorted repeatKeyLt (repeated_candidates occs)

/-- Lines 213–215: the repeat set — the top `cap` sorted candidates. -/
def repeated_strongs_of (occs : List Str) (cap : Nat) : List Str :=
  ((repeated_sorted occs).take cap).map Prod.fst

/-- `_rule_global_rare(ctx)`. -/
def rule_global_rare (ctx : UCContext) : Bool := decide (ctx.global_count ≤ 10)

/-- `_rule_unit_cluster(ctx)`. -/
def rule_unit_cluster (ctx : UCContext) : Bool :=
  decide (ctx.global_count ≤ 50) && decide (3 ≤ ctx.unit_peak)

/-- The ordered rule list `UNCOMMON_RULES`. -/
def UNCOMMON_RULES : List (Str × (UCContext → Bool)) :=
  [(S "global", rule_global_rare), (S "unit", rule_unit_cluster)]

/-- `classify_uncommon(context)`: first matching rule wins. -/
def classify_uncommon (ctx : UCContext) : UCResult :=
  match UNCOMMON_RULES.find? (fun r => r.2 ctx) with
  | some r => ⟨true, some r.1, ctx.global_count, ctx.unit_peak⟩
  | none => ⟨false, none, ctx.global_count, ctx.unit_peak⟩

/-- `should_skip_english_highlight(display_text, has_transliteration)`:
never skip transliterated text; otherwise strip everything but letters and
apostrophes, lowercase, and skip when shorter than
`min_english_highlight_length = 4` or a stop-word. -/
def should_skip_english_highlight (display_text : Str) (has_transliteration : Bool) : Bool :=
  if has_transliteration then false
  else
    decide ((lowerStr (display_text.filter (fun c => c.isAlpha || c = apos))).length < 4)
    || english_stopwords.contains (lowerStr (display_text.filter (fun c => c.isAlpha || c = apos)))

/-- The counts suffix of the uncommon label (lines 273–278). -/
def ucCountsSuffix (u : UCResult) : Str :=
  match u.rule with
  | some r =>
    if r == S "global" then S " · " ++ natToStr u.global_count ++ S "x"
    else if r == S "unit" then
      S " · " ++ natToStr u.global_count ++ S "x · " ++ natToStr u.unit_peak ++ S "x"
    else []
  | none => []

/-- `build_span` (lines 256–313).  `repeated_colors` is the per-chapter colour
dict the closure captures; the result is fallible because `is_light_color` can
raise on a malformed colour string. -/
def build_span (repeated_colors : List (Str × (Str × Str))) (strongs_number display_text
    original_text : Str) (base_color : Option Str) (has_transliteration : Bool)
    (metadata : MetaInfo) (uncommon_meta : Option UCResult) : Except Str Str := do
  let is_uncommon := match uncommon_meta with | some u => u.is_uncommon | none => false
  let tag_name := if is_uncommon then S "button" else S "span"
  let data_original_attr :=
    if has_transliteration then S " data-original=\"" ++ htmlEscape original_text ++ S "\""
    else []
  let classes := [S "highlighted-word"]
  let classes := if has_transliteration then classes ++ [S "transliterated"] else classes
  let classes := if is_uncommon then classes ++ [S "uncommon-word"] else classes
  let data_attrs := [S "data-strongs=\"" ++ safe_attr (some strongs_number) ++ S "\""]
  let data_attrs :=
    if is_uncommon then
      data_attrs ++ [S "data-uncommon=\"true\"",
        S "data-uncommon-info=\""
          ++ safe_attr (some (S "Strong" ++ [apos] ++ S "s " ++ strongs_number ++ S " · "
              ++ pyOrS (pyOrS metadata.xlit original_text) display_text
              ++ (match uncommon_meta with | some u => ucCountsSuffix u | none => [])))
          ++ S "\""]
    else data_attrs
  let data_attrs := data_attrs
    ++ (if metadata.xlit.isEmpty then []
        else [S "data-xliteral=\"" ++ safe_attr (some metadata.xlit) ++ S "\""])
    ++ (if metadata.lemmaStr.isEmpty then []
        else [S "data-lemma=\"" ++ safe_attr (some metadata.lemmaStr) ++ S "\""])
    ++ (if metadata.pronounce.isEmpty then []
        else [S "data-pronounce=\"" ++ safe_attr (some metadata.pronounce) ++ S "\""])
    ++ (if metadata.root.isEmpty then []
        else [S "data-rootkey=\"" ++ safe_attr (some metadata.root) ++ S "\""])
    ++ (if metadata.description.isEmpty then []
        else [S "data-description=\"" ++ safe_attr (some (metadata.description.take 180)) ++ S "\""])
    ++ (if metadata.gloss.isEmpty then []
        else [S "data-gloss=\"" ++ safe_attr (some metadata.gloss) ++ S "\""])
  let data_attr_str := if data_attrs.isEmpty then [] else S " " ++ joinWith (S " ") data_attrs
  let style_parts ←
    if truthyS base_color then do
      let light ← is_light_color ((optS base_color).drop 1)
      pure [S "background-color: " ++ optS base_color ++ S "; color: "
            ++ (if light then S "#000000" else S "#ffffff") ++ S ";"]
    else pure ([] : List Str)
  let (classes, style_parts) :=
    match lookupA repeated_colors strongs_number with
    | some rc =>
      (classes ++ [S "repeated"],
       style_parts ++ [S "color: #1f0f0b; background-color: " ++ rc.2
         ++ S "; border: 1px solid " ++ rc.1 ++ S ";"])
    | none => (classes, style_parts)
  let style_attr :=
    if style_parts.isEmpty then [] else S " style=\"" ++ joinWith (S " ") style_parts ++ S "\""
  let type_attr := if tag_name == S "button" then S " type=\"button\"" else []
  pure (S "<" ++ tag_name ++ S " class=\"" ++ joinWith (S " ") classes ++ S "\""
    ++ data_original_attr ++ data_attr_str ++ style_attr ++ type_attr ++ S ">"
    ++ display_text ++ S "</" ++ tag_name ++ S ">")

/-- The `meta` dict assembled at lines 346–353 and 376–383 (identical shape in
both branches; `display` is the branch's `display_value` and `gloss` the
matched phrase resp. word). -/
def meta_for (xi : Option XlitInfo) (sm : Option StrongsEntry) (display gloss : Str) : MetaInfo :=
  ⟨pyOrS (match xi with | some i => i.xlit | none => []) (optS (sm.bind StrongsEntry.xlit)),
   pyOrS (match xi with | some i => i.lemmaStr | none => []) (optS (sm.bind StrongsEntry.lemmaStr)),
   pyOrS (match xi with | some i => i.pronounce | none => []) (optS (sm.bind StrongsEntry.pronounce)),
   pyOrS (match xi with | some i => i.description | none => []) (optS (sm.bind StrongsEntry.description)),
   pyOrS (match xi with | some i => i.root | none => []) (derive_root sm display),
   gloss⟩

/-- The per-token rendering context shared by the loop of lines 317–397. -/
structure TCtx where
  overrides : List (Str × OverrideEntry)
  lex : List StrongsEntry
  repl_map : List (Str × XlitInfo)
  repeated : List Str
  repeated_colors : List (Str × (Str × Str))
  uncommon : List (Str × UCResult)

/-- The body run for the first matching translation (lines 341–370): either
suppress the occurrence (lines 354–357) or replace the matched text with a
span (lines 359–370). -/
def phrase_step (ctx : TCtx) (num : Str) (xi : Option XlitInfo) (sm : Option StrongsEntry)
    (oe : Option OverrideEntry) (matched_text text : Str) : Except Str (Option Str) := do
  let matched_phrase := stripWs (matched_text.takeWhile (fun c => c ≠ '{'))
  let display_value :=
    match xi with | some i => htmlEscape i.xlit | none => htmlEscape matched_phrase
  let color := match xi with | some i => i.color | none => oe.bind OverrideEntry.color
  let meta := meta_for xi sm display_value matched_phrase
  if should_skip_english_highlight display_value xi.isSome && ctx.repeated.contains num then
    .ok (some (replaceAll matched_text matched_phrase text))
  else do
    let span ← build_span ctx.repeated_colors num display_value matched_phrase color
      xi.isSome meta (lookupA ctx.uncommon num)
    .ok (some (replaceAll matched_text span text))

/-- The iteration over the sorted translation candidates (lines 334–370):
first phrase match wins and ends the loop via `phrase_step`. -/
def try_translations (ctx : TCtx) (num : Str) (xi : Option XlitInfo) (sm : Option StrongsEntry)
    (oe : Option OverrideEntry) : List Str → Str → Except Str (Option Str)
  | [], _ => .ok none
  | t :: ts, text =>
    match find_phrase_match text (lowerStr t) num with
    | none => try_translations ctx num xi sm oe ts text
    | some matched_text => phrase_step ctx num xi sm oe matched_text text

/-- Line 329: the candidate translations (the override's list, defaulting to
the singleton matched word). -/
def translations_for (ctx : TCtx) (num word : Str) : List Str :=
  match lookupA ctx.overrides num with
  | some e => e.translations
  | none => [word]

/-- Line 330: the translations sorted by descending word count (stable). -/
def sorted_translations_for (ctx : TCtx) (num word : Str) : List Str :=
  pySorted (fun a b => decide ((wordsOf b).length < (wordsOf a).length))
    (translations_for ctx num word)

/-- One iteration of the token loop (lines 318–397) for reference id `num`
against the current verse text.  The `alt_match` branch models the
`IndexError` that `alt_match.group(1)` raises on line 322: the line-320
pattern has no capturing group.  (The intended lines 323–324 — strip the
marker and continue — are unreachable.) -/
def processToken (ctx : TCtx) (text num : Str) : Except Str Str :=
  if hasAltPattern num text then .error (S "IndexError: no such group")
  else
    match wordBefore num text with
    | none => .ok text
    | some word => do
      let oe := lookupA ctx.overrides num
      let sm := strongs_lookup ctx.lex num
      let xi := lookupA ctx.repl_map num
      let res ← try_translations ctx num xi sm oe (sorted_translations_for ctx num word) text
      match res with
      | some newText => .ok newText
      | none =>
        let display_value := match xi with | some i => htmlEscape i.xlit | none => htmlEscape word
        let color := match xi with | some i => i.color | none => oe.bind OverrideEntry.color
        let meta := meta_for xi sm display_value word
        if should_skip_english_highlight display_value xi.isSome && ctx.repeated.contains num then
          .ok (replaceAll (word ++ markerStr num) word text)
        else do
          let span ← build_span ctx.repeated_colors num display_value word color
            xi.isSome meta (lookupA ctx.uncommon num)
          .ok (replaceAll (word ++ markerStr num) span text)

/-- A `chapter_data` entry (lines 180–186). -/
structure CVerse where
  text : Str
  strongs : List Str
  verse : Str

/-- Lines 180–186: the verses of the requested book and chapter, with their
extracted marker ids and stringified verse numbers. -/
def chapter_data (kjv : KjvData) (book : Str) (chapter : Nat) : List CVerse :=
  (kjv.verses.filter (fun v => v.book_name == book && v.chapter == chapter)).map
    (fun v => ⟨v.text, extract_strongs_numbers v.text, natToStr v.verse⟩)

/-- Lines 317–401 for one verse: fold the token loop over the verse's marker
ids (extracted once from the original text), strip residual markers, and
prepend the verse number. -/
def process_verse (ctx : TCtx) (v : CVerse) : Except Str Str := do
  let t ← v.strongs.foldlM (fun t n => processToken ctx t n) v.text
  .ok (v.verse ++ S " " ++ strip_residual_markers t)

/-- `count_strongs_in_verses(verses, allowed)`: marker counts over verses,
optionally restricted to an allowed set (an empty `allowed` list is falsy in
Python and means no restriction). -/
def count_strongs_in_verses (verses : List Verse) (allowed : Option (List Str)) :
    List (Str × Nat) :=
  counterOf ((verses.map (fun v =>
    match allowed with
    | some al => if al.isEmpty then extract_strongs_numbers v.text
                 else (extract_strongs_numbers v.text).filter (fun m => al.contains m)
    | none => extract_strongs_numbers v.text)).join)

/-- `setdefault(book, []).append(verse)` over the corpus: the book→verses
dict of `get_verses_by_book`, in insertion order. -/
def verses_by_book (kjv : KjvData) : List (Str × List Verse) :=
  kjv.verses.foldl (fun acc v =>
    if (acc.find? (fun p => p.1 == v.book_name)).isSome then
      acc.map (fun p => if p.1 == v.book_name then (p.1, p.2 ++ [v]) else p)
    else acc ++ [(v.book_name, [v])]) []

/-- `_unit_bounds(unit)`: start/end chapter and verse with Python falsy
chaining (`None` and `0` both falsy; verse defaults are 1 and 0). -/
def unit_bounds (u : LUnit) : Nat × Nat × Nat × Nat :=
  (pyOrND u.start_chapter ((u.range_start.getD ⟨none, none⟩).chapter) 0,
   pyOrND u.start_verse_absolute ((u.range_start.getD ⟨none, none⟩).verse) 1,
   pyOrND u.end_chapter ((u.range_end.getD ⟨none, none⟩).chapter) 0,
   pyOrND u.end_verse_absolute ((u.range_end.getD ⟨none, none⟩).verse) 0)

/-- `_verses_for_unit(kjv_data, book, unit)`. -/
def verses_for_unit (kjv : KjvData) (book : Str) (u : LUnit) : List Verse :=
  match unit_bounds u with
  | (start_ch, start_v, end_ch, end_v) =>
    if start_ch = 0 || end_ch = 0 then []
    else
      ((lookupA (verses_by_book kjv) book).getD []).filter (fun v =>
        decide (start_ch ≤ v.chapter) && decide (v.chapter ≤ end_ch)
        && (!(v.chapter == start_ch) || decide (start_v ≤ v.verse))
        && (!(v.chapter == end_ch) || (end_v == 0) || decide (v.verse ≤ end_v)))

/-- Set or update a key in an association list (append new keys at the end). -/
def setAssoc (l : List (Str × Nat)) (k : Str) (v : Nat) : List (Str × Nat) :=
  if (l.find? (fun p => p.1 == k)).isSome then
    l.map (fun p => if p.1 == k then (p.1, v) else p)
  else l ++ [(k, v)]

/-- Lines 224–233: per-id peak counts across the active literary units,
restricted to ids present in the chapter. -/
def unit_max_counts (kjv : KjvData) (book : Str) (units : List LUnit)
    (chapter_set : List Str) : List (Str × Nat) :=
  units.foldl (fun acc u =>
    ((fun uv =>
      if uv.isEmpty then acc
      else (count_strongs_in_verses uv (some chapter_set)).foldl
        (fun acc2 p => if decide ((lookupA acc2 p.1).getD 0 < p.2) then setAssoc acc2 p.1 p.2 else acc2)
        acc)
     (verses_for_unit kjv book u))) []

/-- Deduplicate a list keeping first occurrences (models building a Python
set whose only observable uses are membership and keying a derived dict). -/
def dedupFirst (l : List Str) : List Str :=
  l.foldl (fun acc x => if acc.contains x then acc else acc ++ [x]) []

/-- Lines 235–244: the rarity classification for every id in the chapter. -/
def uncommon_lookup_of (lex : List StrongsEntry) (gcounts umax : List (Str × Nat))
    (chapter_set : List Str) : List (Str × UCResult) :=
  chapter_set.map (fun n =>
    (n, classify_uncommon
      ⟨n, (lookupA gcounts n).getD 0, (lookupA umax n).getD 0,
       optS ((strongs_lookup lex n).bind StrongsEntry.lemmaStr)⟩))

/-- The rendering context `transliterate_chapter` assembles before its token
loop.  `get_global_strongs_counts` is modelled in its cold-cache state — a
pure function of the corpus (see the cache model below). -/
def mkTCtx (book : Str) (chapter : Nat) (overrides : List (Str × OverrideEntry))
    (lex : List StrongsEntry) (kjv : KjvData) (cap : Nat) (active_units : List LUnit) : TCtx :=
  ((fun cd =>
    ((fun occs =>
      ((fun repeated chapter_set =>
        ((fun gcounts =>
          ((fun umax =>
            ⟨overrides, lex, replacement_mapping overrides lex, repeated,
             repeated.map (fun n => (n, generate_repeat_colors n)),
             uncommon_lookup_of lex gcounts umax chapter_set⟩)
           (if !active_units.isEmpty && !chapter_set.isEmpty then
              unit_max_counts kjv book active_units chapter_set
            else [])))
         (count_strongs_in_verses kjv.verses none)))
       (repeated_strongs_of occs cap) (dedupFirst occs)))
     ((cd.map CVerse.strongs).join)))
   (chapter_data kjv book chapter))

/-- `transliterate_chapter` (lines 134–402): the full rendering pipeline.
Returns the newline-joined per-verse lines, or the exception text when a
modelled Python exception fires (`IndexError` from the doublet branch,
`ValueError` from a malformed colour). -/
def transliterate_chapter (book : Str) (chapter : Nat)
    (strongs_dict_path : List (Str × OverrideEntry)) (strongs_path : List StrongsEntry)
    (kjv_path : KjvData) (max_repeated_highlights : Nat) (active_units : List LUnit) :
    Except Str Str := do
  let lines ← (chapter_data kjv_path book chapter).mapM
    (process_verse (mkTCtx book chapter strongs_dict_path strongs_path kjv_path
      max_repeated_highlights active_units))
  .ok (joinWith ['\n'] lines)

/-! Embedding of `build_sound_annotations.py`. -/

/-- A duck-typed JSON value as accepted by `normalize_strongs_number`:
a string, a list of strings, or anything falsy/unusable. -/
inductive PyVal
  | vstr (s : Str)
  | vlist (l : List Str)
  | vnone

/-- Python truthiness of a `PyVal`. -/
def pyTruthy : PyVal → Bool
  | .vstr s => !s.isEmpty
  | .vlist l => !l.isEmpty
  | .vnone => false

/-- Python `a or b or c` over `PyVal`. -/
def firstTruthyV (a b c : PyVal) : PyVal :=
  if pyTruthy a then a else if pyTruthy b then b else c

/-- Python `str.upper()` on the ASCII fragment. -/
def upperStr (s : Str) : Str := s.map Char.toUpper

/-- `re.compile(r"[GH]\d+").search(candidate)`: the leftmost maximal
prefix-plus-digits match. -/
def searchStrongsNum : Str → Option Str
  | [] => none
  | c :: rest =>
    if (c = 'G' || c = 'H') && (match rest with | d :: _ => d.isDigit | [] => false) then
      some (c :: rest.takeWhile Char.isDigit)
    else searchStrongsNum rest

/-- `normalize_strongs_number(value)`: accept a string or a list of strings,
returning the first embedded Strong's number. -/
def normalize_strongs_number : PyVal → Option Str
  | .vstr s => searchStrongsNum (upperStr s)
  | .vlist l => (l.filterMap (fun s => searchStrongsNum (upperStr s))).head?
  | .vnone => none

/-- A token of the pre-tokenized corpus: a mapping with optional
`strongs`/`strong`/`s` keys, a bare string, or anything else. -/
inductive SoundTok
  | mapTok (strongs strong sKey : PyVal)
  | strTok (v : Str)
  | otherTok

/-- A lexicon-of-roots entry. -/
structure RootEntry where
  root : Option Str
  first_root_letter : Option Str
  first_root : Option Str

/-- The lexicon consumed by the batch (`lexicon.get(strongs_number)`). -/
abbrev RootLexicon := List (Str × RootEntry)

/-- Association-list lookup for arbitrary key types with `BEq`. -/
def lookupK {κ β : Type} [BEq κ] (l : List (κ × β)) (k : κ) : Option β :=
  match l.find? (fun p => p.1 == k) with
  | some p => some p.2
  | none => none

/-- `VerseStats`: root → positions and initial → positions for one verse. -/
structure VerseStats where
  roots : List (Str × List Nat)
  initials : List (Str × List Nat)

/-- `defaultdict(list)[k].append(i)`. -/
def addPos (l : List (Str × List Nat)) (k : Str) (i : Nat) : List (Str × List Nat) :=
  if (l.find? (fun p => p.1 == k)).isSome then
    l.map (fun p => if p.1 == k then (p.1, p.2 ++ [i]) else p)
  else l ++ [(k, [i])]

/-- Python `x or y` over optional strings (the `first_root_letter or
first_root` chain; `None` and `''` falsy). -/
def pyOrOS (a b : Option Str) : Option Str := if truthyS a then a else b

/-- The body of the token loop of `collect_verse_stats` for one enumerated
token. -/
def collectStep (lex : RootLexicon) (st : VerseStats) (p : Nat × SoundTok) : VerseStats :=
  ((fun strongs_value =>
    match normalize_strongs_number strongs_value with
    | none => st
    | some num =>
      match lookupA lex num with
      | none => st
      | some e =>
        ((fun st1 =>
          match pyOrOS e.first_root_letter e.first_root with
          | some ini =>
            if ini.isEmpty then st1 else ⟨st1.roots, addPos st1.initials ini p.1⟩
          | none => st1)
         (match e.root with
          | some r => if r.isEmpty then st else ⟨addPos st.roots r p.1, st.initials⟩
          | none => st)))
   (match p.2 with
    | .mapTok a b c => firstTruthyV a b c
    | .strTok v => .vstr v
    | .otherTok => .vnone))

/-- `collect_verse_stats(tokens, lexicon)`. -/
def collect_verse_stats (tokens : List SoundTok) (lex : RootLexicon) : VerseStats :=
  tokens.enum.foldl (collectStep lex) ⟨[], []⟩

/-- `make_verse_id(book, chapter, verse)`. -/
def make_verse_id (book : Str) (chapter verse : Nat) : Str :=
  book ++ S "|" ++ natToStr chapter ++ S "|" ++ natToStr verse

/-- `tuple_from_range_point(point)`. -/
def tuple_from_range_point (p : RangePoint) : Nat × Nat := (p.chapter.getD 0, p.verse.getD 0)

/-- A literary unit of the batch input (`range_start`/`range_end` objects). -/
structure SoundUnit where
  range_start : Option RangePoint
  range_end : Option RangePoint

/-- The tokenized corpus indexed book → chapter → verse → tokens
(`build_index_by_book_chapter_verse` output, insertion-ordered). -/
abbrev TokIndex := List (Str × List (Nat × List (Nat × List SoundTok)))

/-- Insert into a strictly sorted `Nat` list, skipping duplicates. -/
def insSortedNat (n : Nat) : List Nat → List Nat
  | [] => [n]
  | m :: r => if n < m then n :: m :: r else if n = m then m :: r else m :: insSortedNat n r

/-- `sorted(keys)` for `Nat` dict keys (sorted, duplicate-free). -/
def sortedKeysNat (l : List Nat) : List Nat := l.foldl (fun acc n => insSortedNat n acc) []

/-- Insert into a strictly sorted string list, skipping duplicates. -/
def insSortedStr (s : Str) : List Str → List Str
  | [] => [s]
  | t :: r =>
    if strLtB s t then s :: t :: r else if s == t then t :: r else t :: insSortedStr s r

/-- `sorted(keys)` for string dict keys (sorted, duplicate-free). -/
def sortedKeysStr (l : List Str) : List Str := l.foldl (fun acc s => insSortedStr s acc) []

/-- Python tuple comparison `(c1, v1) <= (c2, v2)`. -/
def pairLe (a b : Nat × Nat) : Bool := a.1 < b.1 || (a.1 == b.1 && decide (a.2 ≤ b.2))

/-- `UnitStats`: aggregated counts of roots and initials for a literary unit. -/
structure UnitStats where
  book : Str
  verses : List Str
  verse_refs : List Str
  root_counts : List (Str × Nat)
  initial_counts : List (Str × Nat)
  root_verses : List (Str × List Str)
  initial_verses : List (Str × List Str)

/-- `Counter[k] += n`. -/
def addCount (l : List (Str × Nat)) (k : Str) (n : Nat) : List (Str × Nat) :=
  if (l.find? (fun p => p.1 == k)).isSome then
    l.map (fun p => if p.1 == k then (p.1, p.2 + n) else p)
  else l ++ [(k, n)]

/-- `defaultdict(set)[k].add(v)`. -/
def addToSet (l : List (Str × List Str)) (k : Str) (v : Str) : List (Str × List Str) :=
  if (l.find? (fun p => p.1 == k)).isSome then
    l.map (fun p => if p.1 == k then (p.1, if p.2.contains v then p.2 else p.2 ++ [v]) else p)
  else l ++ [(k, [v])]

/-- `defaultdict(set)[k].update(vs)`. -/
def addAllToSet (l : List (Str × List Str)) (k : Str) (vs : List Str) : List (Str × List Str) :=
  vs.foldl (fun acc v => addToSet acc k v) l

/-- The `(chapter, verse)` pairs of one book of the index, chapters and
verses in sorted key order (`ordered_verses` of `compute_unit_stats`). -/
def orderedVersesOf (book_data : List (Nat × List (Nat × List SoundTok))) : List (Nat × Nat) :=
  ((sortedKeysNat (book_data.map Prod.fst)).map (fun c =>
    (sortedKeysNat (((lookupK book_data c).getD []).map Prod.fst)).map (fun v => (c, v)))).join

/-- Accumulating one root of one verse into a unit's stats (the
`root_counts`/`root_verses` updates of `compute_unit_stats`). -/
def rootAccStep (vref : Str) (us3 : UnitStats) (rp : Str × List Nat) : UnitStats :=
  ⟨us3.book, us3.verses, us3.verse_refs,
   addCount us3.root_counts rp.1 rp.2.length, us3.initial_counts,
   addToSet us3.root_verses rp.1 vref, us3.initial_verses⟩

/-- Accumulating one initial of one verse into a unit's stats (the
`initial_counts`/`initial_verses` updates of `compute_unit_stats`). -/
def initialAccStep (vref : Str) (us3 : UnitStats) (ip : Str × List Nat) : UnitStats :=
  ⟨us3.book, us3.verses, us3.verse_refs, us3.root_counts,
   addCount us3.initial_counts ip.1 ip.2.length, us3.root_verses,
   addToSet us3.initial_verses ip.1 vref⟩

/-- Accumulating one in-range verse into a unit's stats (the body of the
verse loop of `compute_unit_stats`). -/
def unitVerseStep (book : Str) (vstats : List (Str × VerseStats))
    (us : UnitStats) (cv : Nat × Nat) : UnitStats :=
  ((fun vid vref =>
    ((fun us1 =>
      match lookupA vstats vid with
      | none => us1
      | some stats =>
        stats.initials.foldl (initialAccStep vref) (stats.roots.foldl (rootAccStep vref) us1))
     (⟨us.book, us.verses ++ [vid], us.verse_refs ++ [vref], us.root_counts,
       us.initial_counts, us.root_verses, us.initial_verses⟩ : UnitStats)))
   (make_verse_id book cv.1 cv.2) (natToStr cv.1 ++ S ":" ++ natToStr cv.2))

/-- The `UnitStats` computed for one unit of one book (`compute_unit_stats`
inner loop). -/
def unit_stats_for (book : Str) (ordered_verses : List (Nat × Nat)) (u : SoundUnit)
    (vstats : List (Str × VerseStats)) : UnitStats :=
  ((ordered_verses.filter (fun cv =>
      pairLe (tuple_from_range_point (u.range_start.getD ⟨none, none⟩)) cv
      && pairLe cv (tuple_from_range_point (u.range_end.getD ⟨none, none⟩)))).foldl
    (unitVerseStep book vstats) (⟨book, [], [], [], [], [], []⟩ : UnitStats))

/-- All `UnitStats`, books and units in processing order, skipping books
absent from the index (`compute_unit_stats`). -/
def all_unit_stats (bidx : TokIndex) (units : List (Str × List SoundUnit))
    (vstats : List (Str × VerseStats)) : List UnitStats :=
  (units.map (fun bu =>
    match lookupA bidx bu.1 with
    | none => []
    | some book_data => bu.2.map (fun u => unit_stats_for bu.1 (orderedVersesOf book_data) u vstats))).join

/-- `verse_to_units[verse_id]`: the units containing the verse, in processing
order (each unit appends itself for each of its verse ids). -/
def verse_to_units_lookup (all_units : List UnitStats) (vid : Str) : List UnitStats :=
  all_units.filter (fun us => us.verses.contains vid)

/-- `min(candidate_units, key=lambda u: len(u.verses))`: first minimum. -/
def min_by_len (l : List UnitStats) : Option UnitStats :=
  l.foldl (fun acc u =>
    match acc with
    | none => some u
    | some a => if u.verses.length < a.verses.length then some u else acc) none

/-- `should_include_unit_item(verses_with_item, first_verse, last_verse)`. -/
def should_include_unit_item (verses_with_item : List Str)
    (first_verse last_verse : Option Str) : Bool :=
  ((fun vl =>
    if 2 ≤ vl.length then true
    else if !vl.isEmpty && truthyS first_verse && truthyS last_verse then
      vl.contains (optS first_verse) && vl.contains (optS last_verse)
    else false)
   (sortedKeysStr verses_with_item))

/-- `verse_stats` keyed by verse id over the whole index. -/
def verse_stats_of (bidx : TokIndex) (lex : RootLexicon) : List (Str × VerseStats) :=
  (bidx.map (fun bp =>
    (bp.2.map (fun cp =>
      cp.2.map (fun vp =>
        (make_verse_id bp.1 cp.1 vp.1, collect_verse_stats vp.2 lex)))).join)).join

/-- One verse's annotation entry (lines 293–333). -/
structure VerseAnn where
  local_roots : List (Str × List Nat)
  local_initials : List (Str × List Nat)
  unit_clusters : List (Str × List Str)

/-- Sort association pairs by key (`sorted(d.items())` with unique keys). -/
def pySortedPairsByKeyStr {β : Type} (l : List (Str × β)) : List (Str × β) :=
  pySorted (fun p q => strLtB p.1 q.1) l

/-- The annotation computed for one verse id (body of the innermost loop of
`build_sound_annotations`). -/
def verse_ann_for (vstats : List (Str × VerseStats)) (all_units : List UnitStats)
    (vid : Str) : VerseAnn :=
  ((fun stats candidate_units =>
    ((fun primary_unit =>
      ⟨pySortedPairsByKeyStr (stats.roots.filter (fun rp =>
          decide (2 ≤ rp.2.length)
          && decide (3 ≤ (match primary_unit with
                          | some pu => (lookupA pu.root_counts rp.1).getD 0
                          | none => 0)))),
       pySortedPairsByKeyStr (stats.initials.filter (fun ip =>
          decide (2 ≤ ip.2.length)
          && decide (3 ≤ (match primary_unit with
                          | some pu => (lookupA pu.initial_counts ip.1).getD 0
                          | none => 0)))),
       (pySortedPairsByKeyStr (candidate_units.foldl (fun uc unit =>
          ((fun uc2 =>
            unit.initial_verses.foldl (fun uc3 iv =>
              if should_include_unit_item iv.2 unit.verse_refs.head? unit.verse_refs.getLast? then
                addAllToSet uc3 iv.1 iv.2
              else uc3) uc2)
           (unit.root_verses.foldl (fun uc3 rv =>
              if should_include_unit_item rv.2 unit.verse_refs.head? unit.verse_refs.getLast? then
                addAllToSet uc3 rv.1 rv.2
              else uc3) uc))) [])).map (fun p => (p.1, sortedKeysStr p.2))⟩)
     (min_by_len candidate_units)))
   ((lookupA vstats vid).getD ⟨[], []⟩) (verse_to_units_lookup all_units vid))

/-- The per-chapter part of the output: verse keys stringified, built in
sorted verse order and finally re-sorted by `int(key)` (line 335). -/
def chapterAnnOf (vstats : List (Str × VerseStats)) (all_units : List UnitStats)
    (book : Str) (ch : Nat) (chData : List (Nat × List SoundTok)) : List (Str × VerseAnn) :=
  pySorted (fun p q => decide (strToNatD p.1 < strToNatD q.1))
    ((sortedKeysNat (chData.map Prod.fst)).map (fun vs =>
      (natToStr vs, verse_ann_for vstats all_units (make_verse_id book ch vs))))

/-- The per-book part of the output (chapter keys stringified, re-sorted by
`int(key)` on line 337). -/
def bookAnnOf (vstats : List (Str × VerseStats)) (all_units : List UnitStats)
    (book : Str) (bookData : List (Nat × List (Nat × List SoundTok))) :
    List (Str × List (Str × VerseAnn)) :=
  pySorted (fun p q => decide (strToNatD p.1 < strToNatD q.1))
    ((sortedKeysNat (bookData.map Prod.fst)).map (fun ch =>
      (natToStr ch, chapterAnnOf vstats all_units book ch ((lookupK bookData ch).getD []))))

/-- `build_sound_annotations(bible_index, units, lexicon)` (lines 269–339). -/
def build_sound_annotations (bidx : TokIndex) (units : List (Str × List SoundUnit))
    (lex : RootLexicon) : List (Str × List (Str × List (Str × VerseAnn))) :=
  ((fun vstats =>
    ((fun all_units =>
      (sortedKeysStr (bidx.map Prod.fst)).map (fun book =>
        (book, bookAnnOf vstats all_units book ((lookupA bidx book).getD []))))
     (all_unit_stats bidx units vstats)))
   (verse_stats_of bidx lex))

/-! The process-wide caches of `transliteration.py` (lines 10–11, 29–42),
modelled with explicit cache state threaded through the calls. -/

/-- The module globals `_global_strongs_counts` and `_verses_by_book`. -/
structure CacheState where
  global_counts : Option (List (Str × Nat))
  book_verses : Option (List (Str × List Verse))

/-- The state at process start: both globals are `None`. -/
def initCache : CacheState := ⟨none, none⟩

/-- `get_global_strongs_counts(kjv_data)` with explicit cache state. -/
def get_global_strongs_counts (kjv : KjvData) (st : CacheState) :
    List (Str × Nat) × CacheState :=
  match st.global_counts with
  | some c => (c, st)
  | none =>
    (count_strongs_in_verses kjv.verses none,
     ⟨some (count_strongs_in_verses kjv.verses none), st.book_verses⟩)

/-- `get_verses_by_book(kjv_data)` with explicit cache state. -/
def get_verses_by_book (kjv : KjvData) (st : CacheState) :
    List (Str × List Verse) × CacheState :=
  match st.book_verses with
  | some m => (m, st)
  | none => (verses_by_book kjv, ⟨st.global_counts, some (verses_by_book kjv)⟩)

/-- The results of a sequence of `get_global_strongs_counts` calls within one
process, each call possibly passing a different corpus. -/
def runGlobalCounts (st : CacheState) : List KjvData → List (List (Str × Nat))
  | [] => []
  | k :: ks =>
    (get_global_strongs_counts k st).1
      :: runGlobalCounts (get_global_strongs_counts k st).2 ks

/-- The results of a sequence of `get_verses_by_book` calls within one process. -/
def runVersesByBook (st : CacheState) : List KjvData → List (List (Str × List Verse))
  | [] => []
  | k :: ks =>
    (get_verses_by_book k st).1 :: runVersesByBook (get_verses_by_book k st).2 ks

/-! Concrete inputs used by the claim theorems below. -/

/-- A one-verse corpus whose verse text contains the non-translatable doublet
`word{H1}'{H2}` (a marker immediately followed by an apostrophe and a second,
unrelated marker). -/
def doubletKjv : KjvData := ⟨[⟨S "B", 1, 1, S "word{H1}" ++ [apos] ++ S "{H2}"⟩]⟩

/-- A one-verse corpus with the doublet `go{G1}'{G2}`. -/
def doubletKjv2 : KjvData := ⟨[⟨S "C", 2, 5, S "go{G1}" ++ [apos] ++ S "{G2}"⟩]⟩

/-- A one-verse corpus whose text `{{H1}H2}` makes the single stripping pass
concatenate `{` with `H2}` into a fresh marker. -/
def nestedBraceKjv : KjvData := ⟨[⟨S "B", 1, 1, S "{{H1}H2}"⟩]⟩

/-- A one-verse corpus with an annotated word whose id has no lexicon entry. -/
def noLexKjv : KjvData := ⟨[⟨S "B", 1, 1, S "beginning{H1}"⟩]⟩

/-- Three verses each annotating the short word `go` with `H1`, so `H1` occurs
three times in the chapter; the override store carries `H1`, and the lexicon
romanizes it as the two-letter display `ha`. -/
def shortXlitKjv : KjvData :=
  ⟨[⟨S "B", 1, 1, S "go{H1}"⟩, ⟨S "B", 1, 2, S "go{H1}"⟩, ⟨S "B", 1, 3, S "go{H1}"⟩]⟩

/-- The override store for the C7 counterexample. -/
def shortXlitOverrides : List (Str × OverrideEntry) := [(S "H1", ⟨[S "go"], none⟩)]

/-- The lexicon for the C7 counterexample: `H1` romanizes to `ha`. -/
def shortXlitLex : List StrongsEntry := [⟨S "H1", some (S "ha"), none, none, none⟩]

/-- The rendering context of the C7 witness scenario: `H1` occurs three times,
the override store lists translation `go`, and the lexicon has no entry. -/
def c7ctx : TCtx := mkTCtx (S "B") 1 shortXlitOverrides [] shortXlitKjv 10 []

/-- The rendering context of the C4 witness scenario: empty lexicon, empty
override store, one verse annotating `beginning` with `H1`. -/
def c4ctx : TCtx := mkTCtx (S "B") 1 [] [] noLexKjv 10 []


/-- The numeric value of the digits of `n` appended after an accumulator `a`
in base 10 (fuel-recursive helper relating `natToStr` and `strToNatD`). -/
def appendDigitsAux : Nat → Nat → Nat → Nat
  | 0, a, n => a * 10 + n
  | fuel + 1, a, n =>
    if n < 10 then a * 10 + n else appendDigitsAux fuel a (n / 10) * 10 + n % 10

/-- A one-book, one-chapter, two-verse token index used as a concrete batch
input. -/
def c9bidx : TokIndex :=
  [(S "Gen", [(1, [(1, [SoundTok.strTok (S "H7225"), SoundTok.strTok (S "H7225")]),
                   (2, [SoundTok.strTok (S "H7225")])])])]

/-- A single literary unit spanning the two verses of `c9bidx`. -/
def c9units : List (Str × List SoundUnit) :=
  [(S "Gen", [⟨some ⟨some 1, some 1⟩, some ⟨some 1, some 2⟩⟩])]

/-- A one-entry root lexicon for `c9bidx`. -/
def c9lex : RootLexicon := [(S "H7225", ⟨some (S "ras"), some (S "r"), none⟩)]

/-- Spec side: the in-verse occurrence count of a root — how many token
positions of the verse carry it (the length of its stored position list). -/
def inVerseRootCount (vstats : List (Str × VerseStats)) (vid r : Str) : Nat :=
  ((lookupA ((lookupA vstats vid).getD ⟨[], []⟩).roots r).getD []).length

/-- Spec side: the in-verse occurrence count of an initial. -/
def inVerseInitialCount (vstats : List (Str × VerseStats)) (vid r : Str) : Nat :=
  ((lookupA ((lookupA vstats vid).getD ⟨[], []⟩).initials r).getD []).length

/-- Spec side: a root's total occurrence count within a unit — the sum of its
in-verse counts over the verses the unit spans. -/
def unitRootTotal (vstats : List (Str × VerseStats)) (pu : UnitStats) (r : Str) : Nat :=
  (pu.verses.map (fun vid => inVerseRootCount vstats vid r)).sum

/-- Spec side: an initial's total occurrence count within a unit. -/
def unitInitialTotal (vstats : List (Str × VerseStats)) (pu : UnitStats) (r : Str) : Nat :=
  (pu.verses.map (fun vid => inVerseInitialCount vstats vid r)).sum


/-- A one-book, one-verse token index whose verse carries one root three
times, used as a concrete batch input. -/
def c8bidx : TokIndex :=
  [(S "Gen", [(1, [(1, [SoundTok.strTok (S "H1254"), SoundTok.strTok (S "H1254"),
                        SoundTok.strTok (S "H1254")])])])]

/-- A single literary unit spanning exactly the verse of `c8bidx`. -/
def c8units : List (Str × List SoundUnit) :=
  [(S "Gen", [⟨some ⟨some 1, some 1⟩, some ⟨some 1, some 1⟩⟩])]

/-- A one-entry root lexicon for `c8bidx`. -/
def c8lex : RootLexicon := [(S "H1254", ⟨some (S "br"), some (S "b"), none⟩)]

/-- The single verse entry of the batch output on `c8bidx`. -/
def c8ve : Str × VerseAnn :=
  (natToStr 1, verse_ann_for (verse_stats_of c8bidx c8lex)
    (all_unit_stats c8bidx c8units (verse_stats_of c8bidx c8lex))
    (make_verse_id (S "Gen") 1 1))

/-- The single chapter entry of the batch output on `c8bidx`. -/
def c8ce : Str × List (Str × VerseAnn) := (natToStr 1, [c8ve])

/-- The single book entry of the batch output on `c8bidx`. -/
def c8be : Str × List (Str × List (Str × VerseAnn)) := (S "Gen", [c8ce])


theorem dropWhile_length_le {α} (p : α → Bool) (l : List α) :
    (l.dropWhile p).length ≤ l.length := by
  induction l with
  | nil => simp
  | cons a l ih =>
    by_cases h : p a
    · simp only [List.dropWhile, h]
      exact Nat.le_succ_of_le ih
    · simp [List.dropWhile, h]

theorem parseMarkerAt_cons (c p : Char) (rest : Str) :
    parseMarkerAt (c :: p :: rest)
      = (if c = '{' && (p = 'H' || p = 'G') then
          if (rest.takeWhile Char.isDigit).isEmpty then none
          else
            match rest.dropWhile Char.isDigit with
            | '}' :: r2 => some (p :: rest.takeWhile Char.isDigit, r2)
            | _ => none
        else none) := rfl

theorem parseMarkerAt_length {s : Str} {pr : Str × Str}
    (h : parseMarkerAt s = some pr) : pr.2.length < s.length := by
  match s with
  | [] => exact absurd h (by simp [parseMarkerAt])
  | [c] => exact absurd h (by simp [parseMarkerAt])
  | c :: p :: rest =>
    rw [parseMarkerAt_cons] at h
    split at h
    · split at h
      · simp at h
      · split at h
        · rename_i r2 heq
          have hd := dropWhile_length_le Char.isDigit rest
          rw [heq] at hd
          cases h
          simp only [List.length_cons] at hd ⊢
          omega
        · simp at h
    · simp at h

theorem parseMarkerAt_head {c : Char} {rest : Str} {pr : Str × Str}
    (h : parseMarkerAt (c :: rest) = some pr) : c = '{' := by
  match rest with
  | [] => exact absurd h (by simp [parseMarkerAt])
  | p :: rest2 =>
    rw [parseMarkerAt_cons] at h
    split at h
    · rename_i hcond
      simp only [Bool.and_eq_true, decide_eq_true_eq] at hcond
      exact hcond.1
    · simp at h

theorem parseParenMarkerAt_cons (c o p : Char) (rest : Str) :
    parseParenMarkerAt (c :: o :: p :: rest)
      = (if c = '{' && o = '(' && (p = 'H' || p = 'G') then
          if (rest.takeWhile Char.isDigit).isEmpty then none
          else
            match rest.dropWhile Char.isDigit with
            | ')' :: '}' :: r2 => some r2
            | _ => none
        else none) := rfl

theorem parseParenMarkerAt_length {s r2 : Str}
    (h : parseParenMarkerAt s = some r2) : r2.length < s.length := by
  match s with
  | [] => exact absurd h (by simp [parseParenMarkerAt])
  | [c] => exact absurd h (by simp [parseParenMarkerAt])
  | [c, o] => exact absurd h (by simp [parseParenMarkerAt])
  | c :: o :: p :: rest =>
    rw [parseParenMarkerAt_cons] at h
    split at h
    · split at h
      · simp at h
      · split at h
        · rename_i r2' heq
          have hd := dropWhile_length_le Char.isDigit rest
          rw [heq] at hd
          cases h
          simp only [List.length_cons] at hd ⊢
          omega
        · simp at h
    · simp at h

theorem parseParenMarkerAt_head {c : Char} {rest r2 : Str}
    (h : parseParenMarkerAt (c :: rest) = some r2) : c = '{' := by
  match rest with
  | [] => exact absurd h (by simp [parseParenMarkerAt])
  | [o] => exact absurd h (by simp [parseParenMarkerAt])
  | o :: p :: rest2 =>
    rw [parseParenMarkerAt_cons] at h
    split at h
    · rename_i hcond
      simp only [Bool.and_eq_true, decide_eq_true_eq] at hcond
      exact hcond.1.1
    · simp at h

theorem parseHalfParenMarkerAt_cons (c p : Char) (rest : Str) :
    parseHalfParenMarkerAt (c :: p :: rest)
      = (if c = '{' && (p = 'H' || p = 'G') then
          if (rest.takeWhile Char.isDigit).isEmpty then none
          else
            match rest.dropWhile Char.isDigit with
            | ')' :: '}' :: r2 => some r2
            | _ => none
        else none) := rfl

theorem parseHalfParenMarkerAt_length {s r2 : Str}
    (h : parseHalfParenMarkerAt s = some r2) : r2.length < s.length := by
  match s with
  | [] => exact absurd h (by simp [parseHalfParenMarkerAt])
  | [c] => exact absurd h (by simp [parseHalfParenMarkerAt])
  | c :: p :: rest =>
    rw [parseHalfParenMarkerAt_cons] at h
    split at h
    · split at h
      · simp at h
      · split at h
        · rename_i r2' heq
          have hd := dropWhile_length_le Char.isDigit rest
          rw [heq] at hd
          cases h
          simp only [List.length_cons] at hd ⊢
          omega
        · simp at h
    · simp at h

theorem parseHalfParenMarkerAt_head {c : Char} {rest r2 : Str}
    (h : parseHalfParenMarkerAt (c :: rest) = some r2) : c = '{' := by
  match rest with
  | [] => exact absurd h (by simp [parseHalfParenMarkerAt])
  | p :: rest2 =>
    rw [parseHalfParenMarkerAt_cons] at h
    split at h
    · rename_i hcond
      simp only [Bool.and_eq_true, decide_eq_true_eq] at hcond
      exact hcond.1
    · simp at h

/-- C1: on a documented-shape input whose verse text contains the doublet
pattern, `transliterate_chapter` does not return a string: the `alt_match`
branch evaluates `alt_match.group(1)` against a pattern with no capturing
group and raises `IndexError`, contradicting the claim that the function
always returns a string and never raises. -/
theorem claim_C1_doublet_raises :
    transliterate_chapter (S "B") 1 [] [] doubletKjv 10 []
      = Except.error (S "IndexError: no such group") := by
  rfl

/-- C3: on a verse containing a non-translatable doublet, the rendering does
not drop the marker and continue (the intent of lines 323–324); it raises
`IndexError` at line 322, because the line-320 pattern has no capturing group
for `alt_match.group(1)` to return. -/
theorem claim_C3_doublet_not_dropped :
    transliterate_chapter (S "C") 2 [] [] doubletKjv2 10 []
      = Except.error (S "IndexError: no such group") := by
  rfl

/-- C2 counterexample: the rendered line for the verse `{{H1}H2}` is
`1 {H2}` — it still contains the residual reference-marker substring `{H2}`,
refuting the claim that no rendered line contains a residual marker. -/
theorem claim_C2_counterexample :
    transliterate_chapter (S "B") 1 [] [] nestedBraceKjv 10 [] = Except.ok (S "1 {H2}")
    ∧ containsMarker (S "1 {H2}") = true := by
  exact ⟨by rfl, by rfl⟩

/-- C4 counterexample: with an empty lexicon (so `H1` has no lexicon entry)
the occurrence is not rendered as plain text: the output wraps the word in a
`<button>` element carrying `data-strongs` (and more metadata), refuting the
claim that no wrapping element or data attributes are emitted. -/
theorem claim_C4_counterexample :
    (match transliterate_chapter (S "B") 1 [] [] noLexKjv 10 [] with
     | Except.ok s => containsSubstr (S "<button") s && containsSubstr (S "data-strongs=\"H1\"") s
     | Except.error _ => false) = true := by
  rfl

/-- C7 counterexample: `H1` is in the repeat set (three chapter occurrences)
and its resolved display text `ha` is shorter than 4 characters after
stripping punctuation, yet the occurrence is not suppressed: the rendering
wraps it in styled markup (`should_skip_english_highlight` returns False for
any transliterated occurrence). -/
theorem claim_C7_counterexample :
    (match transliterate_chapter (S "B") 1 shortXlitOverrides shortXlitLex shortXlitKjv 10 [] with
     | Except.ok s => containsSubstr (S "transliterated") s && containsSubstr (S "<button") s
     | Except.error _ => false) = true := by
  rfl

theorem classify_case_global {ctx : UCContext} (h1 : ctx.global_count ≤ 10) :
    classify_uncommon ctx = ⟨true, some (S "global"), ctx.global_count, ctx.unit_peak⟩ := by
  simp [classify_uncommon, UNCOMMON_RULES, List.find?, rule_global_rare, h1]

theorem classify_case_unit {ctx : UCContext} (h1 : ¬ ctx.global_count ≤ 10)
    (h2 : ctx.global_count ≤ 50) (h3 : 3 ≤ ctx.unit_peak) :
    classify_uncommon ctx = ⟨true, some (S "unit"), ctx.global_count, ctx.unit_peak⟩ := by
  simp [classify_uncommon, UNCOMMON_RULES, List.find?, rule_global_rare, rule_unit_cluster,
    h1, h2, h3]

theorem classify_case_common {ctx : UCContext} (h1 : ¬ ctx.global_count ≤ 10)
    (h2 : ¬ (ctx.global_count ≤ 50 ∧ 3 ≤ ctx.unit_peak)) :
    classify_uncommon ctx = ⟨false, none, ctx.global_count, ctx.unit_peak⟩ := by
  have hu : rule_unit_cluster ctx = false := by
    simp only [rule_unit_cluster, Bool.and_eq_false_iff, decide_eq_false_iff_not]
    tauto
  simp [classify_uncommon, UNCOMMON_RULES, List.find?, rule_global_rare, h1, hu]

/-- C6: `classify_uncommon` applies its ordered rule list first-match-wins:
rule `global` exactly when the global count is at most 10; otherwise rule
`unit` exactly when the global count is at most 50 and the unit peak at least
3; otherwise common (`is_uncommon` false, `rule` none), with the counts echoed
unchanged. -/
theorem claim_C6_classify_first_match (ctx : UCContext) :
    ((classify_uncommon ctx).rule = some (S "global") ↔ ctx.global_count ≤ 10)
    ∧ ((classify_uncommon ctx).rule = some (S "unit")
        ↔ (¬ ctx.global_count ≤ 10 ∧ ctx.global_count ≤ 50 ∧ 3 ≤ ctx.unit_peak))
    ∧ ((classify_uncommon ctx).is_uncommon = false
        ↔ (¬ ctx.global_count ≤ 10 ∧ ¬ (ctx.global_count ≤ 50 ∧ 3 ≤ ctx.unit_peak)))
    ∧ ((classify_uncommon ctx).is_uncommon = false → (classify_uncommon ctx).rule = none)
    ∧ (classify_uncommon ctx).global_count = ctx.global_count
    ∧ (classify_uncommon ctx).unit_peak = ctx.unit_peak := by
  have hne1 : ¬ (S "global" = S "unit") := by decide
  by_cases h1 : ctx.global_count ≤ 10
  · rw [classify_case_global h1]
    refine ⟨by simpa using h1, ?_, ?_, by simp, rfl, rfl⟩
    · simp only [Option.some.injEq]
      exact ⟨fun he => absurd he hne1, fun hr => absurd h1 hr.1⟩
    · simp only [Bool.true_eq_false, false_iff]
      tauto
  · by_cases h2 : ctx.global_count ≤ 50 ∧ 3 ≤ ctx.unit_peak
    · rw [classify_case_unit h1 h2.1 h2.2]
      refine ⟨?_, ?_, ?_, by simp, rfl, rfl⟩
      · simp only [Option.some.injEq]
        exact ⟨fun he => absurd he.symm hne1, fun hr => absurd hr h1⟩
      · exact ⟨fun _ => ⟨h1, h2.1, h2.2⟩, fun _ => rfl⟩
      · simp only [Bool.true_eq_false, false_iff]
        tauto
    · rw [classify_case_common h1 h2]
      refine ⟨?_, ?_, ?_, fun _ => rfl, rfl, rfl⟩
      · simp only [reduceCtorEq, false_iff]
        exact h1
      · simp only [reduceCtorEq, false_iff]
        tauto
      · simp only [eq_self_iff_true, true_iff]
        exact ⟨h1, h2⟩

theorem runGlobalCounts_cached (c : List (Str × Nat)) (bv : Option (List (Str × List Verse)))
    (ks : List KjvData) :
    runGlobalCounts ⟨some c, bv⟩ ks = ks.map (fun _ => c) := by
  induction ks with
  | nil => rfl
  | cons k ks ih =>
    simp [runGlobalCounts, get_global_strongs_counts, ih]

theorem runVersesByBook_cached (m : List (Str × List Verse)) (gc : Option (List (Str × Nat)))
    (ks : List KjvData) :
    runVersesByBook ⟨gc, some m⟩ ks = ks.map (fun _ => m) := by
  induction ks with
  | nil => rfl
  | cons k ks ih =>
    simp [runVersesByBook, get_verses_by_book, ih]

/-- C10: both process-wide caches are computed lazily on first call and never
invalidated: in any call sequence starting from the initial (empty-cache)
state, the first call computes from its own corpus argument, and every later
call returns that same first value, whatever corpus is passed to it. -/
theorem claim_C10_caches (k : KjvData) (ks : List KjvData) :
    runGlobalCounts initCache (k :: ks)
      = count_strongs_in_verses k.verses none
          :: ks.map (fun _ => count_strongs_in_verses k.verses none)
    ∧ runVersesByBook initCache (k :: ks)
      = verses_by_book k :: ks.map (fun _ => verses_by_book k) := by
  constructor
  · show (get_global_strongs_counts k initCache).1
        :: runGlobalCounts (get_global_strongs_counts k initCache).2 ks = _
    rw [show get_global_strongs_counts k initCache
        = (count_strongs_in_verses k.verses none,
           ⟨some (count_strongs_in_verses k.verses none), none⟩) from rfl]
    rw [runGlobalCounts_cached]
  · show (get_verses_by_book k initCache).1
        :: runVersesByBook (get_verses_by_book k initCache).2 ks = _
    rw [show get_verses_by_book k initCache
        = (verses_by_book k, ⟨none, some (verses_by_book k)⟩) from rfl]
    rw [runVersesByBook_cached]

theorem stripPlain_no_brace : ∀ (fuel : Nat) (s : Str), s.length ≤ fuel →
    bracesOnlyMarkersAux fuel s = true → '{' ∉ stripPlainMarkersAux fuel s := by
  intro fuel
  induction fuel with
  | zero =>
    intro s hlen _
    have hs : s = [] := List.eq_nil_of_length_eq_zero (Nat.le_zero.1 hlen)
    subst hs
    simp [stripPlainMarkersAux]
  | succ fuel ih =>
    intro s hlen hbr
    match s with
    | [] => simp [stripPlainMarkersAux]
    | c :: rest =>
      simp only [List.length_cons, Nat.succ_le_succ_iff] at hlen
      match hp : parseMarkerAt (c :: rest) with
      | some (sid, r2) =>
        have hc : c = '{' := parseMarkerAt_head hp
        have hr2 : r2.length ≤ fuel := by
          have := parseMarkerAt_length hp
          simp only [List.length_cons] at this
          omega
        have hbr2 : bracesOnlyMarkersAux fuel r2 = true := by
          rw [show bracesOnlyMarkersAux (fuel + 1) (c :: rest)
              = (if c = '{' then
                  match parseMarkerAt (c :: rest) with
                  | some (_, r2) => bracesOnlyMarkersAux fuel r2
                  | none => false
                 else bracesOnlyMarkersAux fuel rest) from rfl] at hbr
          rw [if_pos hc, hp] at hbr
          exact hbr
        rw [show stripPlainMarkersAux (fuel + 1) (c :: rest)
            = (match parseMarkerAt (c :: rest) with
               | some (_, r2) => stripPlainMarkersAux fuel r2
               | none => c :: stripPlainMarkersAux fuel rest) from rfl, hp]
        exact ih r2 hr2 hbr2
      | none =>
        have hc : c ≠ '{' := by
          intro hc
          rw [show bracesOnlyMarkersAux (fuel + 1) (c :: rest)
              = (if c = '{' then
                  match parseMarkerAt (c :: rest) with
                  | some (_, r2) => bracesOnlyMarkersAux fuel r2
                  | none => false
                 else bracesOnlyMarkersAux fuel rest) from rfl] at hbr
          rw [if_pos hc, hp] at hbr
          exact Bool.false_ne_true hbr
        have hbr2 : bracesOnlyMarkersAux fuel rest = true := by
          rw [show bracesOnlyMarkersAux (fuel + 1) (c :: rest)
              = (if c = '{' then
                  match parseMarkerAt (c :: rest) with
                  | some (_, r2) => bracesOnlyMarkersAux fuel r2
                  | none => false
                 else bracesOnlyMarkersAux fuel rest) from rfl] at hbr
          rw [if_neg hc] at hbr
          exact hbr
        rw [show stripPlainMarkersAux (fuel + 1) (c :: rest)
            = (match parseMarkerAt (c :: rest) with
               | some (_, r2) => stripPlainMarkersAux fuel r2
               | none => c :: stripPlainMarkersAux fuel rest) from rfl, hp]
        intro hmem
        rcases List.mem_cons.1 hmem with hmem | hmem
        · exact hc hmem.symm
        · exact ih rest hlen hbr2 hmem

theorem stripParen_id_of_no_brace : ∀ (fuel : Nat) (s : Str), '{' ∉ s →
    stripParenMarkersAux fuel s = s := by
  intro fuel
  induction fuel with
  | zero =>
    intro s _
    match s with
    | [] => rfl
    | c :: rest => rfl
  | succ fuel ih =>
    intro s hnb
    match s with
    | [] => rfl
    | c :: rest =>
      have hc : c ≠ '{' := fun hc => hnb (hc ▸ List.mem_cons_self c rest)
      match hp : parseParenMarkerAt (c :: rest) with
      | some r2 => exact absurd (parseParenMarkerAt_head hp) hc
      | none =>
        rw [show stripParenMarkersAux (fuel + 1) (c :: rest)
            = (match parseParenMarkerAt (c :: rest) with
               | some r2 => stripParenMarkersAux fuel r2
               | none => c :: stripParenMarkersAux fuel rest) from rfl, hp]
        rw [ih rest (fun hm => hnb (List.mem_cons_of_mem c hm))]

theorem stripHalfParen_id_of_no_brace : ∀ (fuel : Nat) (s : Str), '{' ∉ s →
    stripHalfParenMarkersAux fuel s = s := by
  intro fuel
  induction fuel with
  | zero =>
    intro s _
    match s with
    | [] => rfl
    | c :: rest => rfl
  | succ fuel ih =>
    intro s hnb
    match s with
    | [] => rfl
    | c :: rest =>
      have hc : c ≠ '{' := fun hc => hnb (hc ▸ List.mem_cons_self c rest)
      match hp : parseHalfParenMarkerAt (c :: rest) with
      | some r2 => exact absurd (parseHalfParenMarkerAt_head hp) hc
      | none =>
        rw [show stripHalfParenMarkersAux (fuel + 1) (c :: rest)
            = (match parseHalfParenMarkerAt (c :: rest) with
               | some r2 => stripHalfParenMarkersAux fuel r2
               | none => c :: stripHalfParenMarkersAux fuel rest) from rfl, hp]
        rw [ih rest (fun hm => hnb (List.mem_cons_of_mem c hm))]

theorem containsMarker_false_of_no_brace : ∀ (s : Str), '{' ∉ s → containsMarker s = false := by
  intro s
  induction s with
  | nil => intro _; rfl
  | cons c rest ih =>
    intro hnb
    have hc : c ≠ '{' := fun hc => hnb (hc ▸ List.mem_cons_self c rest)
    have hsm : startsAnyMarker (c :: rest) = false := by
      unfold startsAnyMarker
      match hp : parseMarkerAt (c :: rest) with
      | some pr => exact absurd (parseMarkerAt_head hp) hc
      | none => rfl
    rw [show containsMarker (c :: rest)
        = (startsAnyMarker (c :: rest) || containsMarker rest) from rfl, hsm,
      ih (fun hm => hnb (List.mem_cons_of_mem c hm))]
    rfl

/-- C2 (amended): the stripping stage removes every marker present in the text
it scans, in one left-to-right pass; whenever every left brace in the verse
text at stripping time opens a well-formed `{[HG]digits}` marker, the stripped
text contains no residual marker substring.  (Without that proviso a removal
can concatenate surrounding characters into a fresh marker, as the recorded
counterexample `{{H1}H2} ↦ {H2}` shows.) -/
theorem claim_C2_amended_strip_no_marker (s : Str) (h : bracesOnlyMarkers s = true) :
    containsMarker (strip_residual_markers s) = false := by
  have h1 : '{' ∉ stripPlainMarkers s := stripPlain_no_brace s.length s (Nat.le_refl _) h
  unfold strip_residual_markers
  rw [show stripParenMarkers (stripPlainMarkers s)
      = stripParenMarkersAux (stripPlainMarkers s).length (stripPlainMarkers s) from rfl]
  rw [stripParen_id_of_no_brace _ _ h1]
  rw [show stripHalfParenMarkers (stripPlainMarkers s)
      = stripHalfParenMarkersAux (stripPlainMarkers s).length (stripPlainMarkers s) from rfl]
  rw [stripHalfParen_id_of_no_brace _ _ h1]
  exact containsMarker_false_of_no_brace _ h1

/-- Witness for the amended C2 theorem at the concrete verse text `a{H1}b`. -/
theorem claim_C2_amended_witness :
    bracesOnlyMarkers (S "a{H1}b") = true
    ∧ containsMarker (strip_residual_markers (S "a{H1}b")) = false :=
  ⟨by rfl, claim_C2_amended_strip_no_marker (S "a{H1}b") (by rfl)⟩

theorem try_translations_cons (ctx : TCtx) (num : Str) (xi : Option XlitInfo)
    (sm : Option StrongsEntry) (oe : Option OverrideEntry) (t : Str) (ts : List Str)
    (text : Str) :
    try_translations ctx num xi sm oe (t :: ts) text
      = (match find_phrase_match text (lowerStr t) num with
         | none => try_translations ctx num xi sm oe ts text
         | some matched_text => phrase_step ctx num xi sm oe matched_text text) := rfl

/-- C7 (amended): for a token occurrence with no transliteration (the resolver
produced no romanization for the id), whose first sorted translation
phrase-matches, whose display text after stripping punctuation is shorter
than 4 characters or an English stop-word, and whose id is in the repeat set,
`transliterate_chapter`'s token step suppresses the occurrence: the text is
rewritten with the marker stripped and the plain matched phrase left in place
— no span or button markup is emitted.  (Occurrences that do carry a
transliteration are never suppressed: `should_skip_english_highlight` returns
false for them, as the recorded counterexample shows.) -/
theorem claim_C7_amended_suppression (ctx : TCtx) (text num word t m : Str) (ts : List Str)
    (halt : hasAltPattern num text = false)
    (hword : wordBefore num text = some word)
    (hxi : lookupA ctx.repl_map num = none)
    (hsort : sorted_translations_for ctx num word = t :: ts)
    (hfm : find_phrase_match text (lowerStr t) num = some m)
    (hskip : should_skip_english_highlight
        (htmlEscape (stripWs (m.takeWhile (fun c => c ≠ '{')))) false = true)
    (hrep : ctx.repeated.contains num = true) :
    processToken ctx text num
      = Except.ok (replaceAll m (stripWs (m.takeWhile (fun c => c ≠ '{'))) text) := by
  unfold processToken
  rw [halt]
  simp only [Bool.false_eq_true, if_false, hword]
  rw [hxi, hsort, try_translations_cons, hfm]
  unfold phrase_step
  simp only [Option.isSome_none, hskip, hrep, Bool.and_self, if_pos]
  rfl

/-- Witness for the amended C7 theorem: in the concrete three-occurrence
chapter, the unromanized short word `go` in the repeat set is suppressed to
plain text. -/
theorem claim_C7_amended_witness :
    lookupA c7ctx.repl_map (S "H1") = none
    ∧ c7ctx.repeated.contains (S "H1") = true
    ∧ should_skip_english_highlight
        (htmlEscape (stripWs ((S "go{H1}").takeWhile (fun c => c ≠ '{')))) false = true
    ∧ processToken c7ctx (S "go{H1}") (S "H1")
        = Except.ok (replaceAll (S "go{H1}")
            (stripWs ((S "go{H1}").takeWhile (fun c => c ≠ '{'))) (S "go{H1}")) :=
  ⟨by rfl, by rfl, by rfl,
   claim_C7_amended_suppression c7ctx (S "go{H1}") (S "H1") (S "go") (S "go") (S "go{H1}") []
     (by rfl) (by rfl) (by rfl) (by rfl) (by rfl) (by rfl) (by rfl)⟩

theorem replacement_mapping_none {lex : List StrongsEntry} {num : Str}
    (h : strongs_lookup lex num = none) (overrides : List (Str × OverrideEntry)) :
    lookupA (replacement_mapping overrides lex) num = none := by
  unfold lookupA
  cases hf : (replacement_mapping overrides lex).find? (fun p => p.1 == num) with
  | none => rfl
  | some pr =>
    exfalso
    have hmem : pr ∈ replacement_mapping overrides lex := List.mem_of_find?_eq_some hf
    have hkey := List.find?_some hf
    have hkey2 : pr.1 = num := by simpa using hkey
    unfold replacement_mapping at hmem
    obtain ⟨p, hp, hfp⟩ := List.mem_filterMap.1 hmem
    split at hfp <;> try exact Option.noConfusion hfp
    split at hfp <;> try exact Option.noConfusion hfp
    split at hfp <;> try exact Option.noConfusion hfp
    rename_i scr1 entry heq1 scr2 x heq2 hne
    have h1 : p.1 = pr.1 := by
      have h2 := Option.some.inj hfp
      rw [← h2]
    rw [h1, hkey2] at heq1
    rw [h] at heq1
    exact Option.noConfusion heq1

/-- C4 (amended): for a reference id with no lexicon entry, the occurrence is
rendered without transliteration — the display text is the HTML-escaped
matched phrase, `has_transliteration` is false (so no `data-original` and no
`transliterated` class), and the metadata carries no romanization (`xlit`
empty, so no `data-xliteral`).  If the displayed phrase is shorter than 4
characters or an English stop-word and the id is in the repeat set, the
occurrence is suppressed: the marker is removed and the plain phrase left in
place, as the original claim stated.  Otherwise the occurrence is still
wrapped: the emitted replacement is a `build_span` element carrying
`data-strongs` (and a derived root key and gloss), possibly coloured by the
override store, rather than plain unannotated text. -/
theorem claim_C4_amended_unresolved (book : Str) (chapter : Nat)
    (overrides : List (Str × OverrideEntry)) (lex : List StrongsEntry) (kjv : KjvData)
    (cap : Nat) (units : List LUnit) (text num word t m ph : Str) (ts : List Str)
    (hlex : strongs_lookup lex num = none)
    (halt : hasAltPattern num text = false)
    (hword : wordBefore num text = some word)
    (hsort : sorted_translations_for (mkTCtx book chapter overrides lex kjv cap units) num word
      = t :: ts)
    (hfm : find_phrase_match text (lowerStr t) num = some m)
    (hph : ph = stripWs (m.takeWhile (fun c => c ≠ '{'))) :
    processToken (mkTCtx book chapter overrides lex kjv cap units) text num
      = (if should_skip_english_highlight (htmlEscape ph) false
            && (mkTCtx book chapter overrides lex kjv cap units).repeated.contains num then
          Except.ok (replaceAll m ph text)
        else
          Bind.bind
            (build_span (mkTCtx book chapter overrides lex kjv cap units).repeated_colors num
              (htmlEscape ph) ph
              ((lookupA (mkTCtx book chapter overrides lex kjv cap units).overrides num).bind
                OverrideEntry.color) false
              (meta_for none none (htmlEscape ph) ph)
              (lookupA (mkTCtx book chapter overrides lex kjv cap units).uncommon num))
            (fun span => Except.ok (replaceAll m span text)))
    ∧ (meta_for none none (htmlEscape ph) ph).xlit = [] := by
  subst hph
  constructor
  · have hxi : lookupA (mkTCtx book chapter overrides lex kjv cap units).repl_map num = none :=
      replacement_mapping_none hlex overrides
    unfold processToken
    rw [halt]
    simp only [Bool.false_eq_true, if_false, hword]
    rw [hxi, hsort, try_translations_cons, hfm]
    unfold phrase_step
    have hsm : strongs_lookup (mkTCtx book chapter overrides lex kjv cap units).lex num = none :=
      hlex
    rw [hsm]
    simp only [Option.isSome_none]
    by_cases hc : (should_skip_english_highlight
        (htmlEscape (stripWs (m.takeWhile (fun c => c ≠ '{')))) false
        && (mkTCtx book chapter overrides lex kjv cap units).repeated.contains num) = true
    · rw [if_pos hc, if_pos hc]
      rfl
    · rw [if_neg hc, if_neg hc]
      generalize build_span (mkTCtx book chapter overrides lex kjv cap units).repeated_colors num
          (htmlEscape (stripWs (m.takeWhile (fun c => c ≠ '{'))))
          (stripWs (m.takeWhile (fun c => c ≠ '{')))
          ((lookupA (mkTCtx book chapter overrides lex kjv cap units).overrides num).bind
            OverrideEntry.color) false
          (meta_for none none (htmlEscape (stripWs (m.takeWhile (fun c => c ≠ '{'))))
            (stripWs (m.takeWhile (fun c => c ≠ '{'))))
          (lookupA (mkTCtx book chapter overrides lex kjv cap units).uncommon num) = bs
      cases bs with
      | ok span => rfl
      | error e => rfl
  · rfl

/-- Witness for the amended C4 theorem at the concrete one-verse chapter: the
long non-stopword display falls in the wrapped branch, the unresolved id is
rendered by a `build_span` call with no transliteration, and the produced
markup still carries `data-strongs`. -/
theorem claim_C4_amended_witness :
    strongs_lookup [] (S "H1") = none
    ∧ (processToken c4ctx (S "beginning{H1}") (S "H1")
        = (if should_skip_english_highlight (htmlEscape (S "beginning")) false
              && c4ctx.repeated.contains (S "H1") then
            Except.ok (replaceAll (S "beginning{H1}") (S "beginning") (S "beginning{H1}"))
          else
            Bind.bind (build_span c4ctx.repeated_colors (S "H1")
              (htmlEscape (S "beginning")) (S "beginning")
              ((lookupA c4ctx.overrides (S "H1")).bind OverrideEntry.color) false
              (meta_for none none (htmlEscape (S "beginning")) (S "beginning"))
              (lookupA c4ctx.uncommon (S "H1")))
              (fun span => Except.ok (replaceAll (S "beginning{H1}") span (S "beginning{H1}"))))
        ∧ (meta_for none none (htmlEscape (S "beginning")) (S "beginning")).xlit = [])
    ∧ (match processToken c4ctx (S "beginning{H1}") (S "H1") with
       | Except.ok s => containsSubstr (S "data-strongs=\"H1\"") s
       | Except.error _ => false) = true :=
  ⟨by rfl,
   claim_C4_amended_unresolved (S "B") 1 [] [] noLexKjv 10 [] (S "beginning{H1}") (S "H1")
     (S "beginning") (S "beginning") (S "beginning{H1}") (S "beginning") []
     (by rfl) (by rfl) (by rfl) (by rfl) (by rfl) (by rfl),
   by rfl⟩

theorem strLtB_irrefl (s : Str) : strLtB s s = false := by
  induction s with
  | nil => rfl
  | cons a as ih =>
    simp only [strLtB, Nat.lt_irrefl, if_false, if_pos rfl, ih]
    simp

theorem strLtB_asymm : ∀ {a b : Str}, strLtB a b = true → strLtB b a = false := by
  intro a
  induction a with
  | nil =>
    intro b h
    cases b with
    | nil => exact absurd h (by simp [strLtB])
    | cons c cs => rfl
  | cons x xs ih =>
    intro b h
    cases b with
    | nil => exact absurd h (by simp [strLtB])
    | cons y ys =>
      simp only [strLtB] at h ⊢
      by_cases h1 : x.toNat < y.toNat
      · rw [if_neg (by omega), if_neg (by omega)]
      · rw [if_neg h1] at h
        by_cases h2 : x.toNat = y.toNat
        · rw [if_pos h2] at h
          rw [if_neg (by omega), if_pos (by omega)]
          exact ih h
        · rw [if_neg h2] at h
          exact absurd h (by simp)

theorem strLtB_trans : ∀ {a b c : Str}, strLtB a b = true → strLtB b c = true →
    strLtB a c = true := by
  intro a
  induction a with
  | nil =>
    intro b c hab hbc
    cases b with
    | nil => exact absurd hab (by simp [strLtB])
    | cons y ys =>
      cases c with
      | nil => exact absurd hbc (by simp [strLtB])
      | cons z zs => rfl
  | cons x xs ih =>
    intro b c hab hbc
    cases b with
    | nil => exact absurd hab (by simp [strLtB])
    | cons y ys =>
      cases c with
      | nil => exact absurd hbc (by simp [strLtB])
      | cons z zs =>
        simp only [strLtB] at hab hbc ⊢
        by_cases h1 : x.toNat < y.toNat
        · by_cases h2 : y.toNat < z.toNat
          · rw [if_pos (by omega)]
          · rw [if_neg h2] at hbc
            by_cases h3 : y.toNat = z.toNat
            · rw [if_pos (by omega)]
            · rw [if_neg h3] at hbc
              exact absurd hbc (by simp)
        · rw [if_neg h1] at hab
          by_cases h2 : x.toNat = y.toNat
          · rw [if_pos h2] at hab
            by_cases h3 : y.toNat < z.toNat
            · rw [if_pos (by omega)]
            · rw [if_neg h3] at hbc
              by_cases h4 : y.toNat = z.toNat
              · rw [if_neg (by omega), if_pos (by omega)]
                rw [if_pos h4] at hbc
                exact ih hab hbc
              · rw [if_neg h4] at hbc
                exact absurd hbc (by simp)
          · rw [if_neg h2] at hab
            exact absurd hab (by simp)

theorem strLtB_connex : ∀ {a b : Str}, a ≠ b → strLtB a b = true ∨ strLtB b a = true := by
  intro a
  induction a with
  | nil =>
    intro b h
    cases b with
    | nil => exact absurd rfl h
    | cons y ys => exact Or.inl rfl
  | cons x xs ih =>
    intro b h
    cases b with
    | nil => exact Or.inr rfl
    | cons y ys =>
      by_cases h1 : x.toNat < y.toNat
      · exact Or.inl (by simp only [strLtB]; rw [if_pos h1])
      · by_cases h2 : x.toNat = y.toNat
        · have hxy : x = y := Char.ext (UInt32.ext h2)
          subst hxy
          have hts : xs ≠ ys := by
            intro he
            exact h (by rw [he])
          rcases ih hts with h3 | h3
          · exact Or.inl (by simp [strLtB, h3])
          · exact Or.inr (by simp [strLtB, h3])
        · exact Or.inr (by
            simp only [strLtB]
            rw [if_pos (by omega)])

theorem repeatKeyLt_irrefl (p : Str × Nat) : repeatKeyLt p p = false := by
  simp [repeatKeyLt, strLtB_irrefl]

theorem repeatKeyLt_asymm {p q : Str × Nat} (h : repeatKeyLt p q = true) :
    repeatKeyLt q p = false := by
  simp only [repeatKeyLt, Bool.or_eq_true, Bool.and_eq_true, decide_eq_true_eq, beq_iff_eq] at h ⊢
  rcases h with h | ⟨h1, h2⟩
  · simp only [Bool.or_eq_false_iff, Bool.and_eq_false_iff]
    constructor
    · simp only [decide_eq_false_iff_not]
      omega
    · left
      simp only [beq_eq_false_iff_ne, ne_eq]
      omega
  · simp only [Bool.or_eq_false_iff, Bool.and_eq_false_iff]
    constructor
    · simp only [decide_eq_false_iff_not]
      omega
    · right
      exact strLtB_asymm h2
  
theorem repeatKeyLt_trans {p q r : Str × Nat} (h1 : repeatKeyLt p q = true)
    (h2 : repeatKeyLt q r = true) : repeatKeyLt p r = true := by
  simp only [repeatKeyLt, Bool.or_eq_true, Bool.and_eq_true, decide_eq_true_eq, beq_iff_eq]
    at h1 h2 ⊢
  rcases h1 with h1 | ⟨h1a, h1b⟩ <;> rcases h2 with h2 | ⟨h2a, h2b⟩
  · left; omega
  · left; omega
  · left; omega
  · right; exact ⟨by omega, strLtB_trans h1b h2b⟩

theorem repeatKeyLt_connex {p q : Str × Nat} (h : p.1 ≠ q.1) :
    repeatKeyLt p q = true ∨ repeatKeyLt q p = true := by
  by_cases hc : p.2 = q.2
  · rcases strLtB_connex h with h1 | h1
    · left
      simp [repeatKeyLt, hc, h1]
    · right
      simp [repeatKeyLt, hc, h1]
  · by_cases hlt : q.2 < p.2
    · left
      simp [repeatKeyLt, hlt]
    · right
      simp only [repeatKeyLt, Bool.or_eq_true, decide_eq_true_eq]
      left
      omega

theorem lookupA_cons {β : Type} (p : Str × β) (l : List (Str × β)) (x : Str) :
    lookupA (p :: l) x = if p.1 == x then some p.2 else lookupA l x := by
  unfold lookupA
  by_cases h : (p.1 == x) = true
  · rw [@List.find?_cons_of_pos _ (fun q => q.1 == x) p l h, if_pos h]
  · rw [@List.find?_cons_of_neg _ (fun q => q.1 == x) p l h, if_neg h]

theorem bumpCounter_cons (p : Str × Nat) (rest : List (Str × Nat)) (y : Str) :
    bumpCounter (p :: rest) y
      = if p.1 == y then (p.1, p.2 + 1) :: rest else p :: bumpCounter rest y := rfl

theorem bumpCounter_lookup (l : List (Str × Nat)) (y x : Str) :
    lookupA (bumpCounter l y) x
      = if x = y then some ((lookupA l x).getD 0 + 1) else lookupA l x := by
  induction l with
  | nil =>
    by_cases h : x = y
    · subst h
      rw [show bumpCounter [] x = [(x, 1)] from rfl, lookupA_cons]
      simp [lookupA]
    · have hne : (y == x) = false := by
        simp only [beq_eq_false_iff_ne, ne_eq]
        exact fun he => h he.symm
      rw [show bumpCounter [] y = [(y, 1)] from rfl, lookupA_cons]
      simp only [hne, Bool.false_eq_true, if_false, if_neg h]
  | cons p rest ih =>
    rw [bumpCounter_cons]
    by_cases hk : (p.1 == y) = true
    · rw [if_pos hk, lookupA_cons, lookupA_cons]
      have hk2 : p.1 = y := eq_of_beq hk
      by_cases hx : x = y
      · subst hx
        simp [show (p.1 == x) = true from by simpa using hk2]
      · have hne : (p.1 == x) = false := by
          simp only [beq_eq_false_iff_ne, ne_eq, hk2]
          exact fun he => hx he.symm
        simp [hne, hx]
    · rw [if_neg hk, lookupA_cons, lookupA_cons]
      by_cases hpx : (p.1 == x) = true
      · have hpx2 : p.1 = x := eq_of_beq hpx
        have hxy : ¬ x = y := by
          intro he
          rw [he] at hpx2
          rw [hpx2] at hk
          simp at hk
        simp [hpx, hxy]
      · simp [hpx, ih]

theorem bumpCounter_keys (l : List (Str × Nat)) (y : Str) :
    (bumpCounter l y).map Prod.fst
      = if y ∈ l.map Prod.fst then l.map Prod.fst else l.map Prod.fst ++ [y] := by
  induction l with
  | nil => simp [bumpCounter]
  | cons p rest ih =>
    rw [bumpCounter_cons]
    by_cases hk : (p.1 == y) = true
    · have he := eq_of_beq hk
      simp [he]
    · have hne : p.1 ≠ y := by simpa using hk
      have hne2 : ¬ y = p.1 := fun h => hne h.symm
      by_cases hm : y ∈ rest.map Prod.fst
      · simp [hne2, hm, ih, hne]
      · simp [hne2, hm, ih, hne]

theorem counterOf_keys_nodup (occs : List Str) : ((counterOf occs).map Prod.fst).Nodup := by
  suffices h : ∀ acc : List (Str × Nat), (acc.map Prod.fst).Nodup →
      ((occs.foldl bumpCounter acc).map Prod.fst).Nodup by
    exact h [] (by simp)
  induction occs with
  | nil =>
    intro acc h
    exact h
  | cons o os ih =>
    intro acc h
    exact ih (bumpCounter acc o) (by
      rw [bumpCounter_keys]
      by_cases hm : o ∈ acc.map Prod.fst
      · simpa [hm] using h
      · simp [hm, List.nodup_append, h])

theorem counterOf_lookup (occs : List Str) (x : Str) :
    lookupA (counterOf occs) x = if x ∈ occs then some (occs.count x) else none := by
  suffices h : ∀ acc : List (Str × Nat),
      lookupA (occs.foldl bumpCounter acc) x
        = if x ∈ occs then some ((lookupA acc x).getD 0 + occs.count x)
          else lookupA acc x by
    have h2 := h []
    rw [show counterOf occs = occs.foldl bumpCounter [] from rfl, h2]
    by_cases hm : x ∈ occs
    · simp [hm, lookupA]
    · simp [hm, lookupA]
  induction occs with
  | nil =>
    intro acc
    simp
  | cons o os ih =>
    intro acc
    rw [show (o :: os).foldl bumpCounter acc = os.foldl bumpCounter (bumpCounter acc o) from rfl]
    rw [ih (bumpCounter acc o)]
    by_cases hx : x = o
    · subst hx
      rw [bumpCounter_lookup, if_pos rfl]
      have hc : List.count x (x :: os) = List.count x os + 1 := by
        simp [List.count_cons]
      have hmem : x ∈ x :: os := List.mem_cons_self x os
      rw [hc]
      by_cases hm : x ∈ os
      · simp only [hm, if_true, hmem, Option.getD_some, Option.some.injEq, ite_true]
        try omega
      · have hz : os.count x = 0 := List.count_eq_zero.2 hm
        simp only [hm, if_false, hmem, hz, Option.some.injEq, ite_true, ite_false]
        try omega
    · rw [bumpCounter_lookup, if_neg hx]
      have hc : List.count x (o :: os) = List.count x os := by
        simp [List.count_cons, hx]
      have hmm : (x ∈ o :: os) ↔ (x ∈ os) := by
        simp [List.mem_cons, hx]
      rw [hc]
      by_cases hm : x ∈ os
      · simp [hm, hmm]
      · simp [hm, hmm]

theorem lookupA_of_mem_nodup {β : Type} {l : List (Str × β)} (hnd : (l.map Prod.fst).Nodup)
    {p : Str × β} (hp : p ∈ l) : lookupA l p.1 = some p.2 := by
  induction l with
  | nil => cases hp
  | cons q rest ih =>
    rw [lookupA_cons]
    rcases List.mem_cons.1 hp with h | h
    · subst h
      simp
    · simp only [List.map_cons, List.nodup_cons] at hnd
      have hq : ¬ (q.1 == p.1) = true := by
        simp only [beq_iff_eq]
        intro he
        exact hnd.1 (he ▸ List.mem_map_of_mem Prod.fst h)
      rw [if_neg hq]
      exact ih hnd.2 h

theorem lookupA_mem {β : Type} {l : List (Str × β)} {x : Str} {v : β}
    (h : lookupA l x = some v) : (x, v) ∈ l := by
  unfold lookupA at h
  cases hf : l.find? (fun p => p.1 == x) with
  | none => rw [hf] at h; exact Option.noConfusion h
  | some pr =>
    rw [hf] at h
    have hmem := List.mem_of_find?_eq_some hf
    have hkey := List.find?_some hf
    have hkey2 : pr.1 = x := by simpa using hkey
    have hv : pr.2 = v := Option.some.inj h
    have : pr = (x, v) := Prod.ext hkey2 hv
    exact this ▸ hmem

theorem mem_counterOf (occs : List Str) {p : Str × Nat} :
    p ∈ counterOf occs ↔ (p.1 ∈ occs ∧ p.2 = occs.count p.1) := by
  constructor
  · intro hp
    have := lookupA_of_mem_nodup (counterOf_keys_nodup occs) hp
    rw [counterOf_lookup] at this
    by_cases hm : p.1 ∈ occs
    · rw [if_pos hm] at this
      exact ⟨hm, (Option.some.inj this).symm⟩
    · rw [if_neg hm] at this
      exact Option.noConfusion this
  · intro ⟨hm, hv⟩
    have : lookupA (counterOf occs) p.1 = some (occs.count p.1) := by
      rw [counterOf_lookup, if_pos hm]
    have h2 := lookupA_mem this
    have : p = (p.1, occs.count p.1) := Prod.ext rfl hv
    rw [this]
    exact h2

theorem insertStable_perm {α : Type} (lt : α → α → Bool) (a : α) (l : List α) :
    List.Perm (insertStable lt a l) (a :: l) := by
  induction l with
  | nil => exact List.Perm.refl _
  | cons b bs ih =>
    rw [show insertStable lt a (b :: bs)
        = if lt a b then a :: b :: bs else b :: insertStable lt a bs from rfl]
    by_cases h : lt a b
    · rw [if_pos h]
    · rw [if_neg h]
      exact (List.Perm.cons b ih).trans (List.Perm.swap a b bs)

theorem pySorted_perm {α : Type} (lt : α → α → Bool) (l : List α) :
    List.Perm (pySorted lt l) l := by
  suffices h : ∀ acc : List α,
      List.Perm (l.foldl (fun acc a => insertStable lt a acc) acc) (acc ++ l) by
    simpa using h []
  induction l with
  | nil => intro acc; simp
  | cons a as ih =>
    intro acc
    rw [show (a :: as).foldl (fun acc a => insertStable lt a acc) acc
        = as.foldl (fun acc a => insertStable lt a acc) (insertStable lt a acc) from rfl]
    refine (ih (insertStable lt a acc)).trans ?_
    refine ((insertStable_perm lt a acc).append_right as).trans ?_
    rw [List.cons_append]
    exact List.perm_middle.symm

theorem mem_insertStable {α : Type} {lt : α → α → Bool} {a x : α} {l : List α} :
    x ∈ insertStable lt a l ↔ x = a ∨ x ∈ l := by
  have hp := insertStable_perm lt a l
  constructor
  · intro h
    have h2 := hp.subset h
    simpa using h2
  · intro h
    apply hp.symm.subset
    simpa using h

theorem insertStable_pairwise {α : Type} {lt : α → α → Bool}
    (hasym : ∀ x y, lt x y = true → lt y x = false)
    (htrans : ∀ x y z, lt x y = true → lt y z = true → lt x z = true)
    {a : α} {l : List α} (hl : l.Pairwise (fun x y => lt y x = false)) :
    (insertStable lt a l).Pairwise (fun x y => lt y x = false) := by
  induction l with
  | nil => simp [insertStable]
  | cons b bs ih =>
    rw [show insertStable lt a (b :: bs)
        = if lt a b then a :: b :: bs else b :: insertStable lt a bs from rfl]
    rcases List.pairwise_cons.1 hl with ⟨hb, hbs⟩
    by_cases h : lt a b = true
    · rw [if_pos h]
      refine List.pairwise_cons.2 ⟨?_, hl⟩
      intro y hy
      rcases List.mem_cons.1 hy with hy | hy
      · subst hy
        exact hasym _ _ h
      · by_cases hya : lt y a = true
        · have := htrans _ _ _ hya h
          rw [hb y hy] at this
          exact Bool.noConfusion this
        · simpa using hya
    · rw [if_neg h]
      refine List.pairwise_cons.2 ⟨?_, ih hbs⟩
      intro y hy
      rcases mem_insertStable.1 hy with hy | hy
      · subst hy
        simpa using h
      · exact hb y hy

theorem pySorted_pairwise {α : Type} {lt : α → α → Bool}
    (hasym : ∀ x y, lt x y = true → lt y x = false)
    (htrans : ∀ x y z, lt x y = true → lt y z = true → lt x z = true)
    (l : List α) : (pySorted lt l).Pairwise (fun x y => lt y x = false) := by
  suffices h : ∀ acc : List α, acc.Pairwise (fun x y => lt y x = false) →
      (l.foldl (fun acc a => insertStable lt a acc) acc).Pairwise (fun x y => lt y x = false) by
    exact h [] (List.Pairwise.nil)
  induction l with
  | nil =>
    intro acc hacc
    exact hacc
  | cons a as ih =>
    intro acc hacc
    exact ih (insertStable lt a acc) (insertStable_pairwise hasym htrans hacc)

theorem take_mem_strict_sorted {α : Type} {lt : α → α → Bool}
    (hirr : ∀ x, lt x x = false)
    (hasym : ∀ x y, lt x y = true → lt y x = false) :
    ∀ (l : List α), l.Pairwise (fun x y => lt x y = true) → ∀ (n : Nat) (x : α),
      (x ∈ l.take n ↔ (x ∈ l ∧ (l.filter (fun y => lt y x)).length < n)) := by
  intro l
  induction l with
  | nil =>
    intro _ n x
    simp
  | cons a t ih =>
    intro hp n x
    rcases List.pairwise_cons.1 hp with ⟨ha, ht⟩
    cases n with
    | zero => simp
    | succ m =>
      rw [List.take_succ_cons]
      by_cases hx : x = a
      · subst hx
        constructor
        · intro _
          refine ⟨List.mem_cons_self _ _, ?_⟩
          have hf : t.filter (fun y => lt y x) = [] := by
            rw [List.filter_eq_nil_iff]
            intro y hy
            rw [hasym _ _ (ha y hy)]
            simp
          rw [List.filter_cons]
          simp [hirr x, hf]
        · intro _
          exact List.mem_cons_self _ _
      · by_cases hm : x ∈ t
        · have hax : lt a x = true := ha x hm
          rw [List.filter_cons]
          simp only [hax, ite_true]
          constructor
          · intro hmem
            rcases List.mem_cons.1 hmem with h | h
            · exact absurd h hx
            · rcases (ih ht m x).1 h with ⟨h1, h2⟩
              refine ⟨List.mem_cons_of_mem a h1, ?_⟩
              simp only [List.length_cons]
              omega
          · intro ⟨h1, h2⟩
            simp only [List.length_cons] at h2
            have h3 : (t.filter (fun y => lt y x)).length < m := by omega
            exact List.mem_cons_of_mem a ((ih ht m x).2 ⟨hm, h3⟩)
        · constructor
          · intro hmem
            rcases List.mem_cons.1 hmem with h | h
            · exact absurd h hx
            · exact absurd (List.mem_of_mem_take h) hm
          · intro ⟨h1, _⟩
            rcases List.mem_cons.1 h1 with h | h
            · exact absurd h hx
            · exact absurd h hm

theorem pairwise_ne_of_map_nodup {β : Type} {l : List (Str × β)}
    (h : (l.map Prod.fst).Nodup) : l.Pairwise (fun p q => p.1 ≠ q.1) := by
  induction l with
  | nil => exact List.Pairwise.nil
  | cons p rest ih =>
    simp only [List.map_cons, List.nodup_cons] at h
    refine List.pairwise_cons.2 ⟨?_, ih h.2⟩
    intro q hq he
    exact h.1 (he ▸ List.mem_map_of_mem Prod.fst hq)

theorem repeated_candidates_mem (occs : List Str) (p : Str × Nat) :
    p ∈ repeated_candidates occs
      ↔ (p.2 = occs.count p.1 ∧ 3 ≤ occs.count p.1 ∧ p.1 ∉ stop_strongs) := by
  unfold repeated_candidates
  rw [List.mem_filter]
  constructor
  · intro ⟨h1, h2⟩
    rcases (mem_counterOf occs).1 h1 with ⟨hm, hv⟩
    simp only [Bool.and_eq_true, decide_eq_true_eq, Bool.not_eq_true'] at h2
    refine ⟨hv, hv ▸ h2.1, ?_⟩
    intro hs
    have hct : stop_strongs.contains p.1 = true := List.elem_iff.2 hs
    rw [hct] at h2
    exact Bool.noConfusion h2.2
  · intro ⟨hv, hc, hs⟩
    have hm : p.1 ∈ occs := List.count_pos_iff.1 (by omega)
    refine ⟨(mem_counterOf occs).2 ⟨hm, hv⟩, ?_⟩
    simp only [Bool.and_eq_true, decide_eq_true_eq, Bool.not_eq_true']
    refine ⟨hv ▸ hc, ?_⟩
    cases hcon : stop_strongs.contains p.1 with
    | false => rfl
    | true => exact absurd (List.elem_iff.1 hcon) hs

theorem repeated_candidates_keys_nodup (occs : List Str) :
    ((repeated_candidates occs).map Prod.fst).Nodup := by
  unfold repeated_candidates
  have hsub : ((counterOf occs).filter
      (fun p => decide (3 ≤ p.2) && !(stop_strongs.contains p.1))).Sublist (counterOf occs) :=
    List.filter_sublist _
  exact (counterOf_keys_nodup occs).sublist (hsub.map Prod.fst)

theorem filter_length_transfer (occs : List Str) (X : Str × Nat) :
    (occs.dedup.filter (fun y =>
        decide (3 ≤ occs.count y) && !(stop_strongs.contains y)
        && repeatKeyLt (y, occs.count y) X)).length
      = ((repeated_sorted occs).filter (fun y => repeatKeyLt y X)).length := by
  have hperm : List.Perm (repeated_sorted occs) (repeated_candidates occs) := pySorted_perm _ _
  have hA : ((repeated_sorted occs).filter (fun y => repeatKeyLt y X)).length
      = ((repeated_candidates occs).filter (fun y => repeatKeyLt y X)).length := by
    rw [← List.countP_eq_length_filter, ← List.countP_eq_length_filter]
    exact hperm.countP_eq _
  rw [hA]
  have hval : ∀ p ∈ repeated_candidates occs, p = (p.1, occs.count p.1) := by
    intro p hp
    rcases (repeated_candidates_mem occs p).1 hp with ⟨hv, _, _⟩
    exact Prod.ext rfl hv
  have hB : (repeated_candidates occs).filter (fun y => repeatKeyLt y X)
      = ((repeated_candidates occs).filter
          (fun p => repeatKeyLt (p.1, occs.count p.1) X)) := by
    apply List.filter_congr
    intro p hp
    rw [← hval p hp]
  rw [hB]
  have hC : List.Perm (occs.dedup.filter (fun y =>
        decide (3 ≤ occs.count y) && !(stop_strongs.contains y)
        && repeatKeyLt (y, occs.count y) X))
      (((repeated_candidates occs).filter
          (fun p => repeatKeyLt (p.1, occs.count p.1) X)).map Prod.fst) := by
    refine (List.perm_ext_iff_of_nodup ?_ ?_).2 ?_
    · exact (List.nodup_dedup occs).filter _
    · have hsub : (((repeated_candidates occs).filter
          (fun p => repeatKeyLt (p.1, occs.count p.1) X)).map Prod.fst).Sublist
          ((repeated_candidates occs).map Prod.fst) := (List.filter_sublist _).map _
      exact (repeated_candidates_keys_nodup occs).sublist hsub
    · intro y
      constructor
      · intro hy
        rw [List.mem_filter] at hy
        rcases hy with ⟨hyd, hyq⟩
        simp only [Bool.and_eq_true, decide_eq_true_eq, Bool.not_eq_true'] at hyq
        rcases hyq with ⟨⟨hc3, hsb⟩, hlt⟩
        have hns : y ∉ stop_strongs := by
          intro hs
          have hct : stop_strongs.contains y = true := List.elem_iff.2 hs
          rw [hct] at hsb
          exact Bool.noConfusion hsb
        rw [List.mem_map]
        refine ⟨(y, occs.count y), ?_, rfl⟩
        rw [List.mem_filter]
        exact ⟨(repeated_candidates_mem occs (y, occs.count y)).2 ⟨rfl, hc3, hns⟩,
          by simpa using hlt⟩
      · intro hy
        rcases List.mem_map.1 hy with ⟨p, hp, hpy⟩
        rw [List.mem_filter] at hp
        rcases hp with ⟨hpc, hpq⟩
        rcases (repeated_candidates_mem occs p).1 hpc with ⟨hv, hc3, hns⟩
        subst hpy
        rw [List.mem_filter]
        constructor
        · rw [List.mem_dedup]
          exact List.count_pos_iff.1 (by omega)
        · simp only [Bool.and_eq_true, decide_eq_true_eq, Bool.not_eq_true']
          refine ⟨⟨hc3, ?_⟩, by simpa using hpq⟩
          cases hcon : stop_strongs.contains p.1 with
          | false => rfl
          | true => exact absurd (List.elem_iff.1 hcon) hns
  rw [hC.length_eq, List.length_map]

/-- C5: the repeat set consists exactly of the ids occurring at least three
times in the chapter and not in the stop-list, capped to the `cap` best by
descending occurrence count with ties broken by ascending id string: an id is
a member precisely when it is a candidate and fewer than `cap` candidate ids
have a strictly better `(−count, id)` key; and the set never exceeds the cap.
In particular no stop-list id is ever a member, whatever its count. -/
theorem claim_C5_repeat_set (occs : List Str) (cap : Nat) (x : Str) :
    (x ∈ repeated_strongs_of occs cap ↔
      (3 ≤ occs.count x ∧ x ∉ stop_strongs ∧
        (occs.dedup.filter (fun y =>
          decide (3 ≤ occs.count y) && !(stop_strongs.contains y)
          && repeatKeyLt (y, occs.count y) (x, occs.count x))).length < cap))
    ∧ (repeated_strongs_of occs cap).length ≤ cap := by
  have hperm : List.Perm (repeated_sorted occs) (repeated_candidates occs) :=
    pySorted_perm _ _
  have hndk : ((repeated_sorted occs).map Prod.fst).Nodup := by
    have := repeated_candidates_keys_nodup occs
    exact (List.Perm.nodup_iff (hperm.map Prod.fst)).2 this
  have hpne : (repeated_sorted occs).Pairwise (fun p q => p.1 ≠ q.1) :=
    pairwise_ne_of_map_nodup hndk
  have hpw : (repeated_sorted occs).Pairwise (fun p q => repeatKeyLt q p = false) :=
    @pySorted_pairwise _ repeatKeyLt (fun x y h => repeatKeyLt_asymm h)
      (fun x y z h1 h2 => repeatKeyLt_trans h1 h2) (repeated_candidates occs)
  have hstrict : (repeated_sorted occs).Pairwise (fun p q => repeatKeyLt p q = true) := by
    have hand := hpw.and hpne
    refine hand.imp ?_
    intro p q ⟨h1, h2⟩
    rcases repeatKeyLt_connex h2 with h | h
    · exact h
    · rw [h] at h1
      exact Bool.noConfusion h1
  constructor
  · -- membership characterization
    unfold repeated_strongs_of
    rw [List.mem_map]
    constructor
    · intro ⟨p, hp, hpx⟩
      have htake := (take_mem_strict_sorted (fun p => repeatKeyLt_irrefl p)
        (fun x y h => repeatKeyLt_asymm h) (repeated_sorted occs) hstrict cap p).1 hp
      rcases htake with ⟨hmem, hcnt⟩
      have hcand := (repeated_candidates_mem occs p).1 (hperm.subset hmem)
      rcases hcand with ⟨hv, hc, hs⟩
      subst hpx
      refine ⟨hc, hs, ?_⟩
      have heq : (repeated_sorted occs).filter (fun y => repeatKeyLt y p)
          = (repeated_sorted occs).filter (fun y => repeatKeyLt y (p.1, occs.count p.1)) := by
        congr 1
        funext y
        congr 1
        exact Prod.ext rfl hv
      rw [heq] at hcnt
      calc (occs.dedup.filter (fun y =>
              decide (3 ≤ occs.count y) && !(stop_strongs.contains y)
              && repeatKeyLt (y, occs.count y) (p.1, occs.count p.1))).length
          = ((repeated_sorted occs).filter
              (fun y => repeatKeyLt y (p.1, occs.count p.1))).length := by
            apply filter_length_transfer
        _ < cap := hcnt
    · intro ⟨hc, hs, hrank⟩
      refine ⟨(x, occs.count x), ?_, rfl⟩
      have hmem : (x, occs.count x) ∈ repeated_sorted occs := by
        apply (List.Perm.mem_iff hperm).2
        exact (repeated_candidates_mem occs (x, occs.count x)).2 ⟨rfl, hc, hs⟩
      apply (take_mem_strict_sorted (fun p => repeatKeyLt_irrefl p)
        (fun x y h => repeatKeyLt_asymm h) (repeated_sorted occs) hstrict cap (x, occs.count x)).2
      refine ⟨hmem, ?_⟩
      calc ((repeated_sorted occs).filter
              (fun y => repeatKeyLt y (x, occs.count x))).length
          = (occs.dedup.filter (fun y =>
              decide (3 ≤ occs.count y) && !(stop_strongs.contains y)
              && repeatKeyLt (y, occs.count y) (x, occs.count x))).length := by
            symm
            apply filter_length_transfer
        _ < cap := hrank
  · unfold repeated_strongs_of
    rw [List.length_map]
    calc ((repeated_sorted occs).take cap).length ≤ cap := List.length_take_le _ _

/-- Membership in a duplicate-skipping sorted insert on `Nat`. -/
theorem mem_insSortedNat {n x : Nat} {l : List Nat} :
    x ∈ insSortedNat n l ↔ x = n ∨ x ∈ l := by
  induction l with
  | nil => simp [insSortedNat]
  | cons m r ih =>
    rw [show insSortedNat n (m :: r)
        = if n < m then n :: m :: r else if n = m then m :: r else m :: insSortedNat n r from rfl]
    by_cases h1 : n < m
    · simp only [if_pos h1, List.mem_cons]
    · by_cases h2 : n = m
      · subst h2
        rw [if_neg h1, if_pos rfl]
        simp only [List.mem_cons]
        tauto
      · simp only [if_neg h1, if_neg h2, List.mem_cons, ih]
        tauto

/-- `insSortedNat` preserves strict sortedness. -/
theorem insSortedNat_pairwise {n : Nat} {l : List Nat}
    (h : l.Pairwise (fun a b => a < b)) :
    (insSortedNat n l).Pairwise (fun a b => a < b) := by
  induction l with
  | nil => simp [insSortedNat]
  | cons m r ih =>
    rcases List.pairwise_cons.1 h with ⟨hm, hr⟩
    rw [show insSortedNat n (m :: r)
        = if n < m then n :: m :: r else if n = m then m :: r else m :: insSortedNat n r from rfl]
    by_cases h1 : n < m
    · rw [if_pos h1]
      refine List.pairwise_cons.2 ⟨?_, h⟩
      intro b hb
      rcases List.mem_cons.1 hb with hb | hb
      · omega
      · have := hm b hb
        omega
    · rw [if_neg h1]
      by_cases h2 : n = m
      · rw [if_pos h2]
        exact h
      · rw [if_neg h2]
        refine List.pairwise_cons.2 ⟨?_, ih hr⟩
        intro b hb
        rcases mem_insSortedNat.1 hb with hb | hb
        · omega
        · exact hm b hb

/-- `sorted(keys)` on `Nat` keys is strictly sorted. -/
theorem sortedKeysNat_pairwise (l : List Nat) :
    (sortedKeysNat l).Pairwise (fun a b => a < b) := by
  suffices h : ∀ acc : List Nat, acc.Pairwise (fun a b => a < b) →
      (l.foldl (fun acc n => insSortedNat n acc) acc).Pairwise (fun a b => a < b) by
    exact h [] List.Pairwise.nil
  induction l with
  | nil => intro acc hacc; exact hacc
  | cons n ns ih =>
    intro acc hacc
    exact ih (insSortedNat n acc) (insSortedNat_pairwise hacc)

/-- Membership in a duplicate-skipping sorted insert on strings. -/
theorem mem_insSortedStr {s x : Str} {l : List Str} :
    x ∈ insSortedStr s l ↔ x = s ∨ x ∈ l := by
  induction l with
  | nil => simp [insSortedStr]
  | cons t r ih =>
    rw [show insSortedStr s (t :: r)
        = if strLtB s t then s :: t :: r
          else if s == t then t :: r else t :: insSortedStr s r from rfl]
    by_cases h1 : strLtB s t
    · simp only [if_pos h1, List.mem_cons]
    · by_cases h2 : (s == t) = true
      · have h2e : s = t := eq_of_beq h2
        subst h2e
        have h1f : strLtB s s = false := strLtB_irrefl s
        simp only [h1f, Bool.false_eq_true, if_false, BEq.refl, if_true, List.mem_cons]
        tauto
      · simp only [h1, Bool.false_eq_true, if_false, h2, List.mem_cons, ih]
        tauto

/-- `insSortedStr` preserves strict sortedness. -/
theorem insSortedStr_pairwise {s : Str} {l : List Str}
    (h : l.Pairwise (fun a b => strLtB a b = true)) :
    (insSortedStr s l).Pairwise (fun a b => strLtB a b = true) := by
  induction l with
  | nil => simp [insSortedStr]
  | cons t r ih =>
    rcases List.pairwise_cons.1 h with ⟨ht, hr⟩
    rw [show insSortedStr s (t :: r)
        = if strLtB s t then s :: t :: r
          else if s == t then t :: r else t :: insSortedStr s r from rfl]
    by_cases h1 : strLtB s t = true
    · rw [if_pos h1]
      refine List.pairwise_cons.2 ⟨?_, h⟩
      intro b hb
      rcases List.mem_cons.1 hb with hb | hb
      · subst hb
        exact h1
      · exact strLtB_trans h1 (ht b hb)
    · rw [if_neg h1]
      by_cases h2 : (s == t) = true
      · rw [if_pos h2]
        exact h
      · rw [if_neg h2]
        refine List.pairwise_cons.2 ⟨?_, ih hr⟩
        intro b hb
        rcases mem_insSortedStr.1 hb with hb | hb
        · subst hb
          have hne : t ≠ b := by
            intro he
            exact h2 (by simp [he])
          rcases strLtB_connex (fun he => hne he.symm) with h3 | h3
          · exact absurd h3 h1
          · exact h3
        · exact ht b hb

/-- `sorted(keys)` on string keys is strictly sorted. -/
theorem sortedKeysStr_pairwise (l : List Str) :
    (sortedKeysStr l).Pairwise (fun a b => strLtB a b = true) := by
  suffices h : ∀ acc : List Str, acc.Pairwise (fun a b => strLtB a b = true) →
      (l.foldl (fun acc s => insSortedStr s acc) acc).Pairwise
        (fun a b => strLtB a b = true) by
    exact h [] List.Pairwise.nil
  induction l with
  | nil => intro acc hacc; exact hacc
  | cons s ss ih =>
    intro acc hacc
    exact ih (insSortedStr s acc) (insSortedStr_pairwise hacc)

/-- The code point of a decimal digit character. -/
theorem digitChar_toNat {d : Nat} (h : d < 10) : (digitChar d).toNat = 48 + d := by
  interval_cases d <;> decide

/-- Folding the decimal-parse step over printed digits appends them to the
accumulator numerically. -/
theorem natToStrAux_foldl : ∀ (fuel n a : Nat) (acc : Str), n ≤ fuel →
    (natToStrAux fuel n acc).foldl (fun x c => x * 10 + (c.toNat - 48)) a
      = acc.foldl (fun x c => x * 10 + (c.toNat - 48)) (appendDigitsAux fuel a n) := by
  intro fuel
  induction fuel with
  | zero =>
    intro n a acc h
    have hn : n = 0 := Nat.le_zero.1 h
    subst hn
    rw [show natToStrAux 0 0 acc = digitChar 0 :: acc from rfl,
      show appendDigitsAux 0 a 0 = a * 10 + 0 from rfl, List.foldl_cons]
    have h48 : (digitChar 0).toNat = 48 := by decide
    rw [h48]
  | succ f ih =>
    intro n a acc h
    by_cases hn : n < 10
    · rw [show natToStrAux (f + 1) n acc = digitChar n :: acc from by
        simp [natToStrAux, hn]]
      rw [show appendDigitsAux (f + 1) a n = a * 10 + n from by
        simp [appendDigitsAux, hn]]
      rw [List.foldl_cons, digitChar_toNat hn]
      have : 48 + n - 48 = n := by omega
      rw [this]
    · have h10 : 10 ≤ n := Nat.not_lt.1 hn
      have hlt : n / 10 < n := Nat.div_lt_self (by omega) (by omega)
      have hdiv : n / 10 ≤ f := by omega
      rw [show natToStrAux (f + 1) n acc = natToStrAux f (n / 10) (digitChar (n % 10) :: acc)
          from by simp [natToStrAux, hn]]
      rw [ih (n / 10) a (digitChar (n % 10) :: acc) hdiv]
      rw [show appendDigitsAux (f + 1) a n = appendDigitsAux f a (n / 10) * 10 + n % 10
          from by simp [appendDigitsAux, hn]]
      rw [List.foldl_cons, digitChar_toNat (Nat.mod_lt n (by omega))]
      have : 48 + n % 10 - 48 = n % 10 := by omega
      rw [this]

/-- Appending the digits of `n` to an accumulator of `0` yields `n`. -/
theorem appendDigitsAux_zero : ∀ (fuel n : Nat), n ≤ fuel → appendDigitsAux fuel 0 n = n := by
  intro fuel
  induction fuel with
  | zero =>
    intro n h
    have hn : n = 0 := Nat.le_zero.1 h
    subst hn
    rfl
  | succ f ih =>
    intro n h
    by_cases hn : n < 10
    · simp [appendDigitsAux, hn]
    · have hlt : n / 10 < n := Nat.div_lt_self (by omega) (by omega)
      have hdiv : n / 10 ≤ f := by omega
      rw [show appendDigitsAux (f + 1) 0 n
          = appendDigitsAux f 0 (n / 10) * 10 + n % 10 from by simp [appendDigitsAux, hn]]
      rw [ih (n / 10) hdiv]
      omega

/-- `int(str(n)) = n`: the decimal print/parse round trip. -/
theorem strToNatD_natToStr (n : Nat) : strToNatD (natToStr n) = n := by
  unfold strToNatD natToStr
  rw [natToStrAux_foldl n n 0 [] (Nat.le_refl n)]
  rw [List.foldl_nil]
  exact appendDigitsAux_zero n n (Nat.le_refl n)

/-- A stable sort of a pairwise-comparable (connex) list is strictly sorted. -/
theorem pySorted_pairwise_strict {α : Type} {lt : α → α → Bool}
    (hasym : ∀ x y, lt x y = true → lt y x = false)
    (htrans : ∀ x y z, lt x y = true → lt y z = true → lt x z = true)
    {l : List α} (hconn : l.Pairwise (fun x y => lt x y = true ∨ lt y x = true)) :
    (pySorted lt l).Pairwise (fun x y => lt x y = true) := by
  have h1 := pySorted_pairwise hasym htrans l
  have h2 : (pySorted lt l).Pairwise (fun x y => lt x y = true ∨ lt y x = true) :=
    ((pySorted_perm lt l).pairwise_iff (fun h => Or.symm h)).2 hconn
  have h3 := h1.and h2
  refine h3.imp ?_
  intro x y hxy
  rcases hxy with ⟨hf, hor | hor⟩
  · exact hor
  · rw [hf] at hor
    exact Bool.noConfusion hor

/-- A left fold preserves any invariant its step preserves. -/
theorem foldl_pres {α β : Type} (P : α → Prop) (f : α → β → α)
    (hstep : ∀ st b, P st → P (f st b)) :
    ∀ (l : List β) (init : α), P init → P (l.foldl f init) := by
  intro l
  induction l with
  | nil => intro init h; exact h
  | cons b bs ih => intro init h; exact ih (f init b) (hstep init b h)

/-- The keys of `addPos` are the old keys, extended by `k` when it was new. -/
theorem addPos_keys (l : List (Str × List Nat)) (k : Str) (i : Nat) :
    (addPos l k i).map Prod.fst
      = if (l.find? (fun p => p.1 == k)).isSome then l.map Prod.fst
        else l.map Prod.fst ++ [k] := by
  unfold addPos
  by_cases h : (l.find? (fun p => p.1 == k)).isSome
  · rw [if_pos h, if_pos h, List.map_map]
    apply List.map_congr_left
    intro p hp
    simp only [Function.comp_apply]
    split <;> rfl
  · rw [if_neg h, if_neg h, List.map_append]
    rfl

/-- `addPos` preserves duplicate-free keys. -/
theorem addPos_keys_nodup {l : List (Str × List Nat)} {k : Str} {i : Nat}
    (h : (l.map Prod.fst).Nodup) : ((addPos l k i).map Prod.fst).Nodup := by
  rw [addPos_keys]
  by_cases hf : (l.find? (fun p => p.1 == k)).isSome
  · rw [if_pos hf]
    exact h
  · rw [if_neg hf]
    have hnk : k ∉ l.map Prod.fst := by
      intro hm
      rcases List.mem_map.1 hm with ⟨p, hp, he⟩
      have hnone : l.find? (fun p => p.1 == k) = none :=
        Option.not_isSome_iff_eq_none.1 hf
      have := List.find?_eq_none.1 hnone p hp
      exact this (by simp [he])
    simp [List.nodup_append, h, hnk]

/-- The keys of `addToSet` are the old keys, extended by `k` when it was new. -/
theorem addToSet_keys (l : List (Str × List Str)) (k v : Str) :
    (addToSet l k v).map Prod.fst
      = if (l.find? (fun p => p.1 == k)).isSome then l.map Prod.fst
        else l.map Prod.fst ++ [k] := by
  unfold addToSet
  by_cases h : (l.find? (fun p => p.1 == k)).isSome
  · rw [if_pos h, if_pos h, List.map_map]
    apply List.map_congr_left
    intro p hp
    simp only [Function.comp_apply]
    split <;> rfl
  · rw [if_neg h, if_neg h, List.map_append]
    rfl

/-- `addToSet` preserves duplicate-free keys. -/
theorem addToSet_keys_nodup {l : List (Str × List Str)} {k v : Str}
    (h : (l.map Prod.fst).Nodup) : ((addToSet l k v).map Prod.fst).Nodup := by
  rw [addToSet_keys]
  by_cases hf : (l.find? (fun p => p.1 == k)).isSome
  · rw [if_pos hf]
    exact h
  · rw [if_neg hf]
    have hnk : k ∉ l.map Prod.fst := by
      intro hm
      rcases List.mem_map.1 hm with ⟨p, hp, he⟩
      have hnone : l.find? (fun p => p.1 == k) = none :=
        Option.not_isSome_iff_eq_none.1 hf
      have := List.find?_eq_none.1 hnone p hp
      exact this (by simp [he])
    simp [List.nodup_append, h, hnk]

/-- `addAllToSet` preserves duplicate-free keys. -/
theorem addAllToSet_keys_nodup {l : List (Str × List Str)} {k : Str} {vs : List Str}
    (h : (l.map Prod.fst).Nodup) : ((addAllToSet l k vs).map Prod.fst).Nodup := by
  unfold addAllToSet
  exact foldl_pres (fun acc : List (Str × List Str) => (acc.map Prod.fst).Nodup)
    (fun acc v => addToSet acc k v) (fun acc v hp => addToSet_keys_nodup hp) vs l h

/-- One step of the verse-stats loop preserves duplicate-free keys of both maps. -/
theorem collectStep_pres (lex : RootLexicon) (st : VerseStats) (p : Nat × SoundTok)
    (h : (st.roots.map Prod.fst).Nodup ∧ (st.initials.map Prod.fst).Nodup) :
    ((collectStep lex st p).roots.map Prod.fst).Nodup
    ∧ ((collectStep lex st p).initials.map Prod.fst).Nodup := by
  unfold collectStep
  dsimp only
  repeat' (first | split | dsimp only)
  all_goals
    first
      | exact h
      | exact ⟨addPos_keys_nodup h.1, h.2⟩
      | exact ⟨h.1, addPos_keys_nodup h.2⟩
      | exact ⟨addPos_keys_nodup h.1, addPos_keys_nodup h.2⟩

/-- The verse stats of a verse carry duplicate-free root and initial keys. -/
theorem collect_verse_stats_nodup (tokens : List SoundTok) (lex : RootLexicon) :
    ((collect_verse_stats tokens lex).roots.map Prod.fst).Nodup
    ∧ ((collect_verse_stats tokens lex).initials.map Prod.fst).Nodup := by
  unfold collect_verse_stats
  exact foldl_pres (fun st : VerseStats =>
      (st.roots.map Prod.fst).Nodup ∧ (st.initials.map Prod.fst).Nodup)
    (collectStep lex) (collectStep_pres lex) tokens.enum ⟨[], []⟩
    ⟨List.nodup_nil, List.nodup_nil⟩

/-- Every entry of the verse-stats map carries duplicate-free keys. -/
theorem verse_stats_of_nodup {bidx : TokIndex} {lex : RootLexicon} {q : Str × VerseStats}
    (hq : q ∈ verse_stats_of bidx lex) :
    (q.2.roots.map Prod.fst).Nodup ∧ (q.2.initials.map Prod.fst).Nodup := by
  unfold verse_stats_of at hq
  rcases List.mem_join.1 hq with ⟨L, hL, hqL⟩
  rcases List.mem_map.1 hL with ⟨bp, hbp, rfl⟩
  rcases List.mem_join.1 hqL with ⟨L2, hL2, hqL2⟩
  rcases List.mem_map.1 hL2 with ⟨cp, hcp, rfl⟩
  rcases List.mem_map.1 hqL2 with ⟨vp, hvp, rfl⟩
  exact collect_verse_stats_nodup vp.2 lex

/-- Sorting an association list with duplicate-free keys by key yields a
strictly increasing key sequence. -/
theorem pySortedPairsByKeyStr_strict {β : Type} {l : List (Str × β)}
    (hnd : (l.map Prod.fst).Nodup) :
    ((pySortedPairsByKeyStr l).map Prod.fst).Pairwise (fun a b => strLtB a b = true) := by
  rw [List.pairwise_map]
  unfold pySortedPairsByKeyStr
  apply pySorted_pairwise_strict
  · intro x y hxy
    exact strLtB_asymm hxy
  · intro x y z h1 h2
    exact strLtB_trans h1 h2
  · refine (pairwise_ne_of_map_nodup hnd).imp ?_
    intro p q hpq
    exact strLtB_connex hpq

/-- Stringified numeric keys emitted in sorted order and re-sorted by their
parsed value come out strictly increasing under `int(key)`. -/
theorem natkeys_sorted_strict {β : Type} (g : Nat → β) (ks : List Nat) :
    ((pySorted (fun p q => decide (strToNatD p.1 < strToNatD q.1))
        ((sortedKeysNat ks).map (fun n => (natToStr n, g n)))).map Prod.fst).Pairwise
      (fun a b => strToNatD a < strToNatD b) := by
  rw [List.pairwise_map]
  have hconn : ((sortedKeysNat ks).map (fun n => (natToStr n, g n))).Pairwise
      (fun p q => decide (strToNatD p.1 < strToNatD q.1) = true
        ∨ decide (strToNatD q.1 < strToNatD p.1) = true) := by
    rw [List.pairwise_map]
    refine (sortedKeysNat_pairwise ks).imp ?_
    intro a b hab
    left
    simp only [decide_eq_true_eq, strToNatD_natToStr]
    exact hab
  have h := @pySorted_pairwise_strict (Str × β)
    (fun p q => decide (strToNatD p.1 < strToNatD q.1))
    (by
      intro x y hxy
      simp only [decide_eq_true_eq] at hxy
      simp only [decide_eq_false_iff_not]
      omega)
    (by
      intro x y z h1 h2
      simp only [decide_eq_true_eq] at h1 h2 ⊢
      omega)
    _ hconn
  refine h.imp ?_
  intro p q hpq
  simpa using hpq

/-- The annotation computed for any verse id has strictly sorted keys in its
root, initial and cluster maps, and strictly sorted cluster verse lists. -/
theorem verse_ann_sorted (vstats : List (Str × VerseStats)) (all_units : List UnitStats)
    (vid : Str)
    (hnd : ∀ q ∈ vstats, (q.2.roots.map Prod.fst).Nodup ∧ (q.2.initials.map Prod.fst).Nodup) :
    ((verse_ann_for vstats all_units vid).local_roots.map Prod.fst).Pairwise
      (fun a b => strLtB a b = true)
    ∧ ((verse_ann_for vstats all_units vid).local_initials.map Prod.fst).Pairwise
      (fun a b => strLtB a b = true)
    ∧ ((verse_ann_for vstats all_units vid).unit_clusters.map Prod.fst).Pairwise
      (fun a b => strLtB a b = true)
    ∧ ∀ cl ∈ (verse_ann_for vstats all_units vid).unit_clusters,
        cl.2.Pairwise (fun a b => strLtB a b = true) := by
  have hstats : (((lookupA vstats vid).getD ⟨[], []⟩).roots.map Prod.fst).Nodup
      ∧ (((lookupA vstats vid).getD ⟨[], []⟩).initials.map Prod.fst).Nodup := by
    cases hlk : lookupA vstats vid with
    | none => exact ⟨List.nodup_nil, List.nodup_nil⟩
    | some s => exact hnd (vid, s) (lookupA_mem hlk)
  unfold verse_ann_for
  dsimp only
  refine ⟨?_, ?_, ?_, ?_⟩
  · apply pySortedPairsByKeyStr_strict
    exact List.Nodup.sublist ((List.filter_sublist _).map Prod.fst) hstats.1
  · apply pySortedPairsByKeyStr_strict
    exact List.Nodup.sublist ((List.filter_sublist _).map Prod.fst) hstats.2
  · rw [List.map_map]
    have hnd0 : ((((verse_to_units_lookup all_units vid).foldl (fun uc unit =>
        ((fun uc2 =>
          unit.initial_verses.foldl (fun uc3 iv =>
            if should_include_unit_item iv.2 unit.verse_refs.head? unit.verse_refs.getLast? then
              addAllToSet uc3 iv.1 iv.2
            else uc3) uc2)
         (unit.root_verses.foldl (fun uc3 rv =>
            if should_include_unit_item rv.2 unit.verse_refs.head? unit.verse_refs.getLast? then
              addAllToSet uc3 rv.1 rv.2
            else uc3) uc))) [])).map Prod.fst).Nodup := by
      refine foldl_pres (fun l2 : List (Str × List Str) => (l2.map Prod.fst).Nodup)
        _ ?_ _ [] List.nodup_nil
      intro uc u hp
      dsimp only
      refine foldl_pres (fun l2 : List (Str × List Str) => (l2.map Prod.fst).Nodup)
        _ ?_ _ _ (foldl_pres (fun l2 : List (Str × List Str) => (l2.map Prod.fst).Nodup)
          _ ?_ _ _ hp)
      · intro acc iv hacc
        dsimp only
        split
        · exact addAllToSet_keys_nodup hacc
        · exact hacc
      · intro acc rv hacc
        dsimp only
        split
        · exact addAllToSet_keys_nodup hacc
        · exact hacc
    have h := pySortedPairsByKeyStr_strict hnd0
    rw [List.pairwise_map] at h ⊢
    exact h
  · intro cl hcl
    rcases List.mem_map.1 hcl with ⟨p, hp, rfl⟩
    exact sortedKeysStr_pairwise p.2

/-- C9: `build_sound_annotations` is deterministic — two runs on equal
bible-index, literary-unit and lexicon inputs produce equal nested annotation
structures — and its key order is stable and canonical at every level: book
keys strictly increasing lexicographically, chapter and verse keys strictly
increasing numerically, and per verse the `local_roots`, `local_initials` and
`unit_clusters` keys strictly increasing lexicographically with every
cluster's verse list itself strictly sorted. -/
theorem claim_C9_stable_ordering (bidx bidx2 : TokIndex)
    (units units2 : List (Str × List SoundUnit)) (lex lex2 : RootLexicon)
    (hb : bidx2 = bidx) (hu : units2 = units) (hl : lex2 = lex) :
    build_sound_annotations bidx2 units2 lex2 = build_sound_annotations bidx units lex
    ∧ ((build_sound_annotations bidx units lex).map Prod.fst).Pairwise
        (fun a b => strLtB a b = true)
    ∧ ∀ be ∈ build_sound_annotations bidx units lex,
        (be.2.map Prod.fst).Pairwise (fun a b => strToNatD a < strToNatD b)
        ∧ ∀ ce ∈ be.2,
            (ce.2.map Prod.fst).Pairwise (fun a b => strToNatD a < strToNatD b)
            ∧ ∀ ve ∈ ce.2,
                (ve.2.local_roots.map Prod.fst).Pairwise (fun a b => strLtB a b = true)
                ∧ (ve.2.local_initials.map Prod.fst).Pairwise
                    (fun a b => strLtB a b = true)
                ∧ (ve.2.unit_clusters.map Prod.fst).Pairwise
                    (fun a b => strLtB a b = true)
                ∧ ∀ cl ∈ ve.2.unit_clusters,
                    cl.2.Pairwise (fun a b => strLtB a b = true) := by
  subst hb
  subst hu
  subst hl
  refine ⟨rfl, ?_, ?_⟩
  · unfold build_sound_annotations
    dsimp only
    rw [List.pairwise_map, List.pairwise_map]
    exact sortedKeysStr_pairwise _
  · intro be hbe
    unfold build_sound_annotations at hbe
    dsimp only at hbe
    rcases List.mem_map.1 hbe with ⟨book, hbook, rfl⟩
    constructor
    · dsimp only
      unfold bookAnnOf
      exact natkeys_sorted_strict _ _
    · intro ce hce
      dsimp only at hce
      unfold bookAnnOf at hce
      rcases List.mem_map.1 ((pySorted_perm _ _).subset hce) with ⟨ch, hch, rfl⟩
      constructor
      · dsimp only
        unfold chapterAnnOf
        exact natkeys_sorted_strict _ _
      · intro ve hve
        dsimp only at hve
        unfold chapterAnnOf at hve
        rcases List.mem_map.1 ((pySorted_perm _ _).subset hve) with ⟨vs, hvs, rfl⟩
        dsimp only
        exact verse_ann_sorted _ _ _ (fun q hq => verse_stats_of_nodup hq)

/-- Concrete instantiation of the C9 determinism and stable-ordering theorem
on a one-book index. -/
theorem claim_C9_stable_ordering_witness :
    build_sound_annotations c9bidx c9units c9lex = build_sound_annotations c9bidx c9units c9lex
    ∧ ((build_sound_annotations c9bidx c9units c9lex).map Prod.fst).Pairwise
        (fun a b => strLtB a b = true)
    ∧ ∀ be ∈ build_sound_annotations c9bidx c9units c9lex,
        (be.2.map Prod.fst).Pairwise (fun a b => strToNatD a < strToNatD b)
        ∧ ∀ ce ∈ be.2,
            (ce.2.map Prod.fst).Pairwise (fun a b => strToNatD a < strToNatD b)
            ∧ ∀ ve ∈ ce.2,
                (ve.2.local_roots.map Prod.fst).Pairwise (fun a b => strLtB a b = true)
                ∧ (ve.2.local_initials.map Prod.fst).Pairwise
                    (fun a b => strLtB a b = true)
                ∧ (ve.2.unit_clusters.map Prod.fst).Pairwise
                    (fun a b => strLtB a b = true)
                ∧ ∀ cl ∈ ve.2.unit_clusters,
                    cl.2.Pairwise (fun a b => strLtB a b = true) :=
  claim_C9_stable_ordering c9bidx c9bidx c9units c9units c9lex c9lex rfl rfl rfl

/-- Association lookup over an append tries the left list first. -/
theorem lookupA_append {β : Type} (l1 l2 : List (Str × β)) (x : Str) :
    lookupA (l1 ++ l2) x
      = match lookupA l1 x with
        | some v => some v
        | none => lookupA l2 x := by
  induction l1 with
  | nil => rfl
  | cons p rest ih =>
    rw [List.cons_append, lookupA_cons, lookupA_cons]
    by_cases h : (p.1 == x) = true
    · rw [if_pos h, if_pos h]
    · rw [if_neg h, if_neg h, ih]

/-- A key absent from the key list looks up to `none`. -/
theorem lookupA_eq_none {β : Type} {l : List (Str × β)} {x : Str}
    (h : x ∉ l.map Prod.fst) : lookupA l x = none := by
  induction l with
  | nil => rfl
  | cons p rest ih =>
    simp only [List.map_cons, List.mem_cons] at h
    push_neg at h
    rw [lookupA_cons, if_neg ?hh]
    case hh =>
      simp only [beq_iff_eq]
      exact fun he => h.1 he.symm
    exact ih h.2

/-- Bumping the entries keyed `k` leaves lookups of other keys unchanged. -/
theorem lookupA_bump_ne {k x : Str} (hkx : k ≠ x) (n : Nat) :
    ∀ l : List (Str × Nat),
      lookupA (l.map (fun p => if p.1 == k then (p.1, p.2 + n) else p)) x
        = lookupA l x := by
  intro l
  induction l with
  | nil => rfl
  | cons p rest ih =>
    rw [List.map_cons, lookupA_cons, lookupA_cons]
    by_cases hp : (p.1 == k) = true
    · have hpx : ¬ (p.1 == x) = true := by
        have hpk : p.1 = k := eq_of_beq hp
        simp only [beq_iff_eq, hpk]
        exact hkx
      rw [show (if p.1 == k then (p.1, p.2 + n) else p) = (p.1, p.2 + n) from if_pos hp]
      rw [if_neg hpx, if_neg hpx]
      exact ih
    · rw [show (if p.1 == k then (p.1, p.2 + n) else p) = p from if_neg hp]
      by_cases hpx : (p.1 == x) = true
      · rw [if_pos hpx, if_pos hpx]
      · rw [if_neg hpx, if_neg hpx]
        exact ih

/-- Bumping the entries keyed `k` adds `n` to the lookup of `k`. -/
theorem lookupA_bump_self (k : Str) (n : Nat) :
    ∀ l : List (Str × Nat),
      lookupA (l.map (fun p => if p.1 == k then (p.1, p.2 + n) else p)) k
        = (lookupA l k).map (fun v => v + n) := by
  intro l
  induction l with
  | nil => rfl
  | cons p rest ih =>
    rw [List.map_cons, lookupA_cons, lookupA_cons]
    by_cases hp : (p.1 == k) = true
    · rw [show (if p.1 == k then (p.1, p.2 + n) else p) = (p.1, p.2 + n) from if_pos hp]
      rw [if_pos hp, if_pos hp]
      rfl
    · rw [show (if p.1 == k then (p.1, p.2 + n) else p) = p from if_neg hp]
      rw [if_neg hp, if_neg hp]
      exact ih

/-- `Counter[k] += n` shifts exactly the looked-up count of `k`. -/
theorem addCount_lookup (l : List (Str × Nat)) (k : Str) (n : Nat) (x : Str) :
    (lookupA (addCount l k n) x).getD 0
      = (lookupA l x).getD 0 + (if (k == x) = true then n else 0) := by
  by_cases hkx : (k == x) = true
  · have hx : k = x := eq_of_beq hkx
    subst hx
    rw [if_pos hkx]
    unfold addCount
    by_cases hf : (l.find? (fun p => p.1 == k)).isSome
    · rw [if_pos hf]
      rw [lookupA_bump_self]
      have hsome : ∃ v, lookupA l k = some v := by
        unfold lookupA
        cases hfd : l.find? (fun p => p.1 == k) with
        | none =>
          rw [hfd] at hf
          exact absurd hf (by simp)
        | some pr => exact ⟨pr.2, rfl⟩
      rcases hsome with ⟨v, hv⟩
      rw [hv]
      rfl
    · rw [if_neg hf]
      have hnone : lookupA l k = none := by
        unfold lookupA
        cases hfd : l.find? (fun p => p.1 == k) with
        | none => rfl
        | some pr =>
          rw [hfd] at hf
          exact absurd rfl hf
      rw [lookupA_append, hnone]
      simp [lookupA_cons]
  · rw [if_neg hkx]
    have hkx2 : k ≠ x := fun he => hkx (by simp [he])
    unfold addCount
    by_cases hf : (l.find? (fun p => p.1 == k)).isSome
    · rw [if_pos hf, lookupA_bump_ne hkx2]
      simp
    · rw [if_neg hf, lookupA_append]
      cases hl : lookupA l x with
      | none =>
        have hk : (k == x) = false := by
          simp only [beq_eq_false_iff_ne]
          exact hkx2
        simp [lookupA_cons, hk]
        rfl
      | some v => simp

/-- With duplicate-free keys, the by-key filter-sum of position lengths is the
length of the looked-up position list. -/
theorem filter_sum_eq_lookup {entries : List (Str × List Nat)}
    (hnd : (entries.map Prod.fst).Nodup) (r : Str) :
    ((entries.filter (fun rp => rp.1 == r)).map (fun rp => rp.2.length)).sum
      = ((lookupA entries r).getD []).length := by
  induction entries with
  | nil => rfl
  | cons p rest ih =>
    simp only [List.map_cons, List.nodup_cons] at hnd
    rw [List.filter_cons, lookupA_cons]
    by_cases hp : (p.1 == r) = true
    · have hr : p.1 = r := eq_of_beq hp
      have hrest : rest.filter (fun rp => rp.1 == r) = [] := by
        rw [List.filter_eq_nil_iff]
        intro q hq
        simp only [beq_iff_eq]
        intro he
        apply hnd.1
        rw [hr, ← he]
        exact List.mem_map_of_mem Prod.fst hq
      simp [hp, hrest]
    · simp only [hp, Bool.false_eq_true, if_false]
      exact ih hnd.2

/-- Folding the roots of one verse into a unit's stats: other fields are kept,
and each root count grows by the by-key sum of its position-list lengths. -/
theorem rootAccFold_props (vref : Str) (entries : List (Str × List Nat)) :
    ∀ us : UnitStats,
      (entries.foldl (rootAccStep vref) us).verses = us.verses
      ∧ (entries.foldl (rootAccStep vref) us).initial_counts = us.initial_counts
      ∧ ∀ r : Str,
          (lookupA (entries.foldl (rootAccStep vref) us).root_counts r).getD 0
            = (lookupA us.root_counts r).getD 0
              + ((entries.filter (fun rp => rp.1 == r)).map (fun rp => rp.2.length)).sum := by
  induction entries with
  | nil =>
    intro us
    exact ⟨rfl, rfl, fun r => by simp⟩
  | cons rp rest ih =>
    intro us
    rw [List.foldl_cons]
    obtain ⟨h1, h2, h3⟩ := ih (rootAccStep vref us rp)
    refine ⟨h1, h2, ?_⟩
    intro r
    rw [h3 r, List.filter_cons]
    have hstep : (lookupA (rootAccStep vref us rp).root_counts r).getD 0
        = (lookupA us.root_counts r).getD 0 + (if (rp.1 == r) = true then rp.2.length else 0) :=
      addCount_lookup us.root_counts rp.1 rp.2.length r
    rw [hstep]
    by_cases hk : (rp.1 == r) = true
    · simp only [hk, if_true, List.map_cons, List.sum_cons]
      omega
    · simp only [hk, Bool.false_eq_true, if_false]
      omega

/-- Folding the initials of one verse into a unit's stats: other fields are
kept, and each initial count grows by the by-key sum of lengths. -/
theorem initialAccFold_props (vref : Str) (entries : List (Str × List Nat)) :
    ∀ us : UnitStats,
      (entries.foldl (initialAccStep vref) us).verses = us.verses
      ∧ (entries.foldl (initialAccStep vref) us).root_counts = us.root_counts
      ∧ ∀ r : Str,
          (lookupA (entries.foldl (initialAccStep vref) us).initial_counts r).getD 0
            = (lookupA us.initial_counts r).getD 0
              + ((entries.filter (fun ip => ip.1 == r)).map (fun ip => ip.2.length)).sum := by
  induction entries with
  | nil =>
    intro us
    exact ⟨rfl, rfl, fun r => by simp⟩
  | cons ip rest ih =>
    intro us
    rw [List.foldl_cons]
    obtain ⟨h1, h2, h3⟩ := ih (initialAccStep vref us ip)
    refine ⟨h1, h2, ?_⟩
    intro r
    rw [h3 r, List.filter_cons]
    have hstep : (lookupA (initialAccStep vref us ip).initial_counts r).getD 0
        = (lookupA us.initial_counts r).getD 0
          + (if (ip.1 == r) = true then ip.2.length else 0) :=
      addCount_lookup us.initial_counts ip.1 ip.2.length r
    rw [hstep]
    by_cases hk : (ip.1 == r) = true
    · simp only [hk, if_true, List.map_cons, List.sum_cons]
      omega
    · simp only [hk, Bool.false_eq_true, if_false]
      omega

/-- One verse step of the unit loop appends the verse id and grows each root
and initial count by that verse's in-verse count. -/
theorem unitVerseStep_props (book : Str) (vstats : List (Str × VerseStats))
    (hv : ∀ q ∈ vstats, (q.2.roots.map Prod.fst).Nodup ∧ (q.2.initials.map Prod.fst).Nodup)
    (us : UnitStats) (cv : Nat × Nat) :
    (unitVerseStep book vstats us cv).verses
      = us.verses ++ [make_verse_id book cv.1 cv.2]
    ∧ (∀ r : Str, (lookupA (unitVerseStep book vstats us cv).root_counts r).getD 0
        = (lookupA us.root_counts r).getD 0
          + inVerseRootCount vstats (make_verse_id book cv.1 cv.2) r)
    ∧ (∀ r : Str, (lookupA (unitVerseStep book vstats us cv).initial_counts r).getD 0
        = (lookupA us.initial_counts r).getD 0
          + inVerseInitialCount vstats (make_verse_id book cv.1 cv.2) r) := by
  unfold unitVerseStep
  dsimp only
  cases hlk : lookupA vstats (make_verse_id book cv.1 cv.2) with
  | none =>
    refine ⟨rfl, fun r => ?_, fun r => ?_⟩
    · unfold inVerseRootCount
      rw [hlk]
      simp [lookupA]
    · unfold inVerseInitialCount
      rw [hlk]
      simp [lookupA]
  | some stats =>
    obtain ⟨hi1, hi2, hi3⟩ := initialAccFold_props (natToStr cv.1 ++ S ":" ++ natToStr cv.2)
      stats.initials (stats.roots.foldl
        (rootAccStep (natToStr cv.1 ++ S ":" ++ natToStr cv.2))
        ⟨us.book, us.verses ++ [make_verse_id book cv.1 cv.2],
         us.verse_refs ++ [natToStr cv.1 ++ S ":" ++ natToStr cv.2], us.root_counts,
         us.initial_counts, us.root_verses, us.initial_verses⟩)
    obtain ⟨hr1, hr2, hr3⟩ := rootAccFold_props (natToStr cv.1 ++ S ":" ++ natToStr cv.2)
      stats.roots
      ⟨us.book, us.verses ++ [make_verse_id book cv.1 cv.2],
       us.verse_refs ++ [natToStr cv.1 ++ S ":" ++ natToStr cv.2], us.root_counts,
       us.initial_counts, us.root_verses, us.initial_verses⟩
    have hnd := hv (make_verse_id book cv.1 cv.2, stats) (lookupA_mem hlk)
    refine ⟨?_, fun r => ?_, fun r => ?_⟩
    · rw [hi1, hr1]
    · rw [hi2, hr3 r]
      dsimp only
      unfold inVerseRootCount
      rw [hlk]
      simp only [Option.getD_some]
      rw [filter_sum_eq_lookup hnd.1 r]
    · rw [hi3 r, hr2]
      dsimp only
      unfold inVerseInitialCount
      rw [hlk]
      simp only [Option.getD_some]
      rw [filter_sum_eq_lookup hnd.2 r]

/-- The verse loop of `compute_unit_stats` collects exactly the processed verse
ids, and each root and initial count ends as the sum of in-verse counts over
those verses. -/
theorem unitfold_props (book : Str) (vstats : List (Str × VerseStats))
    (hv : ∀ q ∈ vstats, (q.2.roots.map Prod.fst).Nodup ∧ (q.2.initials.map Prod.fst).Nodup) :
    ∀ (ovs : List (Nat × Nat)) (us : UnitStats),
      (ovs.foldl (unitVerseStep book vstats) us).verses
        = us.verses ++ ovs.map (fun cv => make_verse_id book cv.1 cv.2)
      ∧ (∀ r : Str,
          (lookupA (ovs.foldl (unitVerseStep book vstats) us).root_counts r).getD 0
            = (lookupA us.root_counts r).getD 0
              + ((ovs.map (fun cv =>
                  inVerseRootCount vstats (make_verse_id book cv.1 cv.2) r)).sum))
      ∧ (∀ r : Str,
          (lookupA (ovs.foldl (unitVerseStep book vstats) us).initial_counts r).getD 0
            = (lookupA us.initial_counts r).getD 0
              + ((ovs.map (fun cv =>
                  inVerseInitialCount vstats (make_verse_id book cv.1 cv.2) r)).sum)) := by
  intro ovs
  induction ovs with
  | nil =>
    intro us
    exact ⟨by simp, fun r => by simp, fun r => by simp⟩
  | cons cv rest ih =>
    intro us
    rw [List.foldl_cons]
    obtain ⟨h1, h2, h3⟩ := ih (unitVerseStep book vstats us cv)
    obtain ⟨s1, s2, s3⟩ := unitVerseStep_props book vstats hv us cv
    refine ⟨?_, fun r => ?_, fun r => ?_⟩
    · rw [h1, s1, List.map_cons, List.append_assoc, List.singleton_append]
    · rw [h2 r, s2 r, List.map_cons, List.sum_cons]
      omega
    · rw [h3 r, s3 r, List.map_cons, List.sum_cons]
      omega

/-- Any unit's aggregated root and initial counts are the spec-side totals:
sums of in-verse counts over the verses the unit spans. -/
theorem unit_stats_for_counts (book : Str) (ordered_verses : List (Nat × Nat))
    (u : SoundUnit) (vstats : List (Str × VerseStats))
    (hv : ∀ q ∈ vstats, (q.2.roots.map Prod.fst).Nodup ∧ (q.2.initials.map Prod.fst).Nodup)
    (r : Str) :
    (lookupA (unit_stats_for book ordered_verses u vstats).root_counts r).getD 0
      = unitRootTotal vstats (unit_stats_for book ordered_verses u vstats) r
    ∧ (lookupA (unit_stats_for book ordered_verses u vstats).initial_counts r).getD 0
      = unitInitialTotal vstats (unit_stats_for book ordered_verses u vstats) r := by
  unfold unit_stats_for
  obtain ⟨h1, h2, h3⟩ := unitfold_props book vstats hv
    (ordered_verses.filter (fun cv =>
      pairLe (tuple_from_range_point (u.range_start.getD ⟨none, none⟩)) cv
      && pairLe cv (tuple_from_range_point (u.range_end.getD ⟨none, none⟩))))
    (⟨book, [], [], [], [], [], []⟩ : UnitStats)
  constructor
  · rw [h2 r]
    unfold unitRootTotal
    rw [h1]
    have h0 : (lookupA ([] : List (Str × Nat)) r).getD 0 = 0 := rfl
    rw [h0]
    simp only [List.nil_append, List.map_map, Nat.zero_add]
    rfl
  · rw [h3 r]
    unfold unitInitialTotal
    rw [h1]
    have h0 : (lookupA ([] : List (Str × Nat)) r).getD 0 = 0 := rfl
    rw [h0]
    simp only [List.nil_append, List.map_map, Nat.zero_add]
    rfl

/-- Every computed unit's counts equal the spec-side unit totals. -/
theorem all_unit_stats_counts {bidx : TokIndex} {units : List (Str × List SoundUnit)}
    {vstats : List (Str × VerseStats)}
    (hv : ∀ q ∈ vstats, (q.2.roots.map Prod.fst).Nodup ∧ (q.2.initials.map Prod.fst).Nodup)
    {pu : UnitStats} (hpu : pu ∈ all_unit_stats bidx units vstats) (r : Str) :
    (lookupA pu.root_counts r).getD 0 = unitRootTotal vstats pu r
    ∧ (lookupA pu.initial_counts r).getD 0 = unitInitialTotal vstats pu r := by
  unfold all_unit_stats at hpu
  rcases List.mem_join.1 hpu with ⟨L, hL, hpuL⟩
  rcases List.mem_map.1 hL with ⟨bu, hbu, rfl⟩
  rcases hbd : lookupA bidx bu.1 with _ | book_data
  · rw [hbd] at hpuL
    cases hpuL
  · rw [hbd] at hpuL
    rcases List.mem_map.1 hpuL with ⟨u, hu, rfl⟩
    exact unit_stats_for_counts bu.1 (orderedVersesOf book_data) u vstats hv r

/-- Folding the first-minimum step from a set accumulator: the result never
lengthens, comes from the accumulator or the list, and bounds every element. -/
theorem min_fold_some : ∀ (l : List UnitStats) (a u : UnitStats),
    l.foldl (fun acc u =>
      match acc with
      | none => some u
      | some b => if u.verses.length < b.verses.length then some u else acc) (some a) = some u →
    u.verses.length ≤ a.verses.length ∧ (u = a ∨ u ∈ l)
      ∧ ∀ w ∈ l, u.verses.length ≤ w.verses.length := by
  intro l
  induction l with
  | nil =>
    intro a u h
    have hu : u = a := (Option.some.inj h).symm
    subst hu
    exact ⟨Nat.le_refl _, Or.inl rfl, by intro w hw; cases hw⟩
  | cons w ws ih =>
    intro a u h
    rw [List.foldl_cons] at h
    by_cases hlt : w.verses.length < a.verses.length
    · rw [show (match some a with
          | none => some w
          | some b => if w.verses.length < b.verses.length then some w else some a)
          = some w from by
            show (if w.verses.length < a.verses.length then some w else some a) = some w
            rw [if_pos hlt]] at h
      obtain ⟨g1, g2, g3⟩ := ih w u h
      refine ⟨by omega, ?_, ?_⟩
      · rcases g2 with g2 | g2
        · exact Or.inr (g2 ▸ List.mem_cons_self w ws)
        · exact Or.inr (List.mem_cons_of_mem w g2)
      · intro x hx
        rcases List.mem_cons.1 hx with hx | hx
        · subst hx
          exact g1
        · exact g3 x hx
    · rw [show (match some a with
          | none => some w
          | some b => if w.verses.length < b.verses.length then some w else some a)
          = some a from by
            show (if w.verses.length < a.verses.length then some w else some a) = some a
            rw [if_neg hlt]] at h
      obtain ⟨g1, g2, g3⟩ := ih a u h
      refine ⟨g1, ?_, ?_⟩
      · rcases g2 with g2 | g2
        · exact Or.inl g2
        · exact Or.inr (List.mem_cons_of_mem w g2)
      · intro x hx
        rcases List.mem_cons.1 hx with hx | hx
        · subst hx
          omega
        · exact g3 x hx

/-- `min(candidate_units, key=lambda u: len(u.verses))` returns a member of the
list whose verse span is no longer than any other member's. -/
theorem min_by_len_spec {l : List UnitStats} {u : UnitStats}
    (h : min_by_len l = some u) :
    u ∈ l ∧ ∀ w ∈ l, u.verses.length ≤ w.verses.length := by
  cases l with
  | nil => exact Option.noConfusion h
  | cons w ws =>
    unfold min_by_len at h
    rw [List.foldl_cons] at h
    obtain ⟨g1, g2, g3⟩ := min_fold_some ws w u h
    refine ⟨?_, ?_⟩
    · rcases g2 with g2 | g2
      · exact g2 ▸ List.mem_cons_self w ws
      · exact List.mem_cons_of_mem w g2
    · intro x hx
      rcases List.mem_cons.1 hx with hx | hx
      · subst hx
        exact g1
      · exact g3 x hx

/-- A root or initial enters a verse's local maps exactly when it occurs at
least twice in the verse and at least three times across the primary
(fewest-verses containing) unit. -/
theorem verse_ann_mem_iff (vstats : List (Str × VerseStats)) (all_units : List UnitStats)
    (vid : Str)
    (hv : ∀ q ∈ vstats, (q.2.roots.map Prod.fst).Nodup ∧ (q.2.initials.map Prod.fst).Nodup)
    (hcnt : ∀ pu ∈ all_units, ∀ r : Str,
      (lookupA pu.root_counts r).getD 0 = unitRootTotal vstats pu r
      ∧ (lookupA pu.initial_counts r).getD 0 = unitInitialTotal vstats pu r)
    (r : Str) :
    (r ∈ (verse_ann_for vstats all_units vid).local_roots.map Prod.fst
      ↔ 2 ≤ inVerseRootCount vstats vid r
        ∧ ∃ pu, min_by_len (verse_to_units_lookup all_units vid) = some pu
            ∧ pu ∈ verse_to_units_lookup all_units vid
            ∧ (∀ u ∈ verse_to_units_lookup all_units vid,
                pu.verses.length ≤ u.verses.length)
            ∧ 3 ≤ unitRootTotal vstats pu r)
    ∧ (r ∈ (verse_ann_for vstats all_units vid).local_initials.map Prod.fst
      ↔ 2 ≤ inVerseInitialCount vstats vid r
        ∧ ∃ pu, min_by_len (verse_to_units_lookup all_units vid) = some pu
            ∧ pu ∈ verse_to_units_lookup all_units vid
            ∧ (∀ u ∈ verse_to_units_lookup all_units vid,
                pu.verses.length ≤ u.verses.length)
            ∧ 3 ≤ unitInitialTotal vstats pu r) := by
  have hstats : (((lookupA vstats vid).getD ⟨[], []⟩).roots.map Prod.fst).Nodup
      ∧ (((lookupA vstats vid).getD ⟨[], []⟩).initials.map Prod.fst).Nodup := by
    cases hlk : lookupA vstats vid with
    | none => exact ⟨List.nodup_nil, List.nodup_nil⟩
    | some s => exact hv (vid, s) (lookupA_mem hlk)
  have hmem_sorted : ∀ {β : Type} (L : List (Str × β)),
      r ∈ (pySortedPairsByKeyStr L).map Prod.fst ↔ r ∈ L.map Prod.fst := by
    intro β L
    exact ((pySorted_perm _ _).map Prod.fst).mem_iff
  have hpua : ∀ {pu : UnitStats}, pu ∈ verse_to_units_lookup all_units vid → pu ∈ all_units := by
    intro pu hpu
    unfold verse_to_units_lookup at hpu
    exact (List.mem_filter.1 hpu).1
  unfold verse_ann_for
  dsimp only
  constructor
  · rw [hmem_sorted, List.mem_map]
    constructor
    · rintro ⟨rp, hrp, hrpr⟩
      obtain ⟨hmem, hpred⟩ := List.mem_filter.1 hrp
      simp only [Bool.and_eq_true, decide_eq_true_eq] at hpred
      obtain ⟨h2, h3⟩ := hpred
      subst hrpr
      constructor
      · unfold inVerseRootCount
        rw [lookupA_of_mem_nodup hstats.1 hmem]
        simpa using h2
      · cases hmin : min_by_len (verse_to_units_lookup all_units vid) with
        | none =>
          rw [hmin] at h3
          exact absurd (show 3 ≤ 0 from h3) (by omega)
        | some pu =>
          rw [hmin] at h3
          obtain ⟨hpuc, hpumin⟩ := min_by_len_spec hmin
          refine ⟨pu, rfl, hpuc, hpumin, ?_⟩
          rw [← (hcnt pu (hpua hpuc) rp.1).1]
          exact h3
    · rintro ⟨h2, pu, hmin, hpuc, hpumin, h3⟩
      unfold inVerseRootCount at h2
      cases hlkr : lookupA ((lookupA vstats vid).getD ⟨[], []⟩).roots r with
      | none =>
        rw [hlkr] at h2
        exact absurd (show 2 ≤ 0 from by simpa using h2) (by omega)
      | some ps =>
        rw [hlkr] at h2
        have hmem : (r, ps) ∈ ((lookupA vstats vid).getD ⟨[], []⟩).roots := lookupA_mem hlkr
        refine ⟨(r, ps), List.mem_filter.2 ⟨hmem, ?_⟩, rfl⟩
        simp only [Bool.and_eq_true, decide_eq_true_eq]
        refine ⟨by simpa using h2, ?_⟩
        rw [hmin]
        show 3 ≤ (lookupA pu.root_counts r).getD 0
        rw [(hcnt pu (hpua hpuc) r).1]
        exact h3
  · rw [hmem_sorted, List.mem_map]
    constructor
    · rintro ⟨ip, hip, hipr⟩
      obtain ⟨hmem, hpred⟩ := List.mem_filter.1 hip
      simp only [Bool.and_eq_true, decide_eq_true_eq] at hpred
      obtain ⟨h2, h3⟩ := hpred
      subst hipr
      constructor
      · unfold inVerseInitialCount
        rw [lookupA_of_mem_nodup hstats.2 hmem]
        simpa using h2
      · cases hmin : min_by_len (verse_to_units_lookup all_units vid) with
        | none =>
          rw [hmin] at h3
          exact absurd (show 3 ≤ 0 from h3) (by omega)
        | some pu =>
          rw [hmin] at h3
          obtain ⟨hpuc, hpumin⟩ := min_by_len_spec hmin
          refine ⟨pu, rfl, hpuc, hpumin, ?_⟩
          rw [← (hcnt pu (hpua hpuc) ip.1).2]
          exact h3
    · rintro ⟨h2, pu, hmin, hpuc, hpumin, h3⟩
      unfold inVerseInitialCount at h2
      cases hlkr : lookupA ((lookupA vstats vid).getD ⟨[], []⟩).initials r with
      | none =>
        rw [hlkr] at h2
        exact absurd (show 2 ≤ 0 from by simpa using h2) (by omega)
      | some ps =>
        rw [hlkr] at h2
        have hmem : (r, ps) ∈ ((lookupA vstats vid).getD ⟨[], []⟩).initials := lookupA_mem hlkr
        refine ⟨(r, ps), List.mem_filter.2 ⟨hmem, ?_⟩, rfl⟩
        simp only [Bool.and_eq_true, decide_eq_true_eq]
        refine ⟨by simpa using h2, ?_⟩
        rw [hmin]
        show 3 ≤ (lookupA pu.initial_counts r).getD 0
        rw [(hcnt pu (hpua hpuc) r).2]
        exact h3

/-- C8: for every verse of the batch output, a root (resp. initial) appears in
that verse's `local_roots` (resp. `local_initials`) exactly when its in-verse
occurrence count is at least 2 and its total occurrence count within the
verse's primary unit — a containing unit spanning the fewest verses, as picked
by `min(candidate_units, key=len(verses))` — is at least 3. -/
theorem claim_C8_local_thresholds (bidx : TokIndex) (units : List (Str × List SoundUnit))
    (lex : RootLexicon) :
    ∀ be ∈ build_sound_annotations bidx units lex, ∀ ce ∈ be.2, ∀ ve ∈ ce.2,
      ∃ ch vs : Nat, ce.1 = natToStr ch ∧ ve.1 = natToStr vs ∧
        ∀ r : Str,
          (r ∈ ve.2.local_roots.map Prod.fst
            ↔ 2 ≤ inVerseRootCount (verse_stats_of bidx lex) (make_verse_id be.1 ch vs) r
              ∧ ∃ pu, min_by_len (verse_to_units_lookup
                    (all_unit_stats bidx units (verse_stats_of bidx lex))
                    (make_verse_id be.1 ch vs)) = some pu
                  ∧ pu ∈ verse_to_units_lookup
                      (all_unit_stats bidx units (verse_stats_of bidx lex))
                      (make_verse_id be.1 ch vs)
                  ∧ (∀ u ∈ verse_to_units_lookup
                        (all_unit_stats bidx units (verse_stats_of bidx lex))
                        (make_verse_id be.1 ch vs),
                      pu.verses.length ≤ u.verses.length)
                  ∧ 3 ≤ unitRootTotal (verse_stats_of bidx lex) pu r)
          ∧ (r ∈ ve.2.local_initials.map Prod.fst
            ↔ 2 ≤ inVerseInitialCount (verse_stats_of bidx lex) (make_verse_id be.1 ch vs) r
              ∧ ∃ pu, min_by_len (verse_to_units_lookup
                    (all_unit_stats bidx units (verse_stats_of bidx lex))
                    (make_verse_id be.1 ch vs)) = some pu
                  ∧ pu ∈ verse_to_units_lookup
                      (all_unit_stats bidx units (verse_stats_of bidx lex))
                      (make_verse_id be.1 ch vs)
                  ∧ (∀ u ∈ verse_to_units_lookup
                        (all_unit_stats bidx units (verse_stats_of bidx lex))
                        (make_verse_id be.1 ch vs),
                      pu.verses.length ≤ u.verses.length)
                  ∧ 3 ≤ unitInitialTotal (verse_stats_of bidx lex) pu r) := by
  intro be hbe ce hce ve hve
  unfold build_sound_annotations at hbe
  dsimp only at hbe
  rcases List.mem_map.1 hbe with ⟨book, hbook, rfl⟩
  dsimp only at hce
  unfold bookAnnOf at hce
  rcases List.mem_map.1 ((pySorted_perm _ _).subset hce) with ⟨ch, hch, rfl⟩
  dsimp only at hve
  unfold chapterAnnOf at hve
  rcases List.mem_map.1 ((pySorted_perm _ _).subset hve) with ⟨vs, hvs, rfl⟩
  refine ⟨ch, vs, rfl, rfl, ?_⟩
  intro r
  exact verse_ann_mem_iff (verse_stats_of bidx lex)
    (all_unit_stats bidx units (verse_stats_of bidx lex))
    (make_verse_id book ch vs)
    (fun q hq => verse_stats_of_nodup hq)
    (fun pu hpu r2 => all_unit_stats_counts (fun q hq => verse_stats_of_nodup hq) hpu r2) r

/-- Concrete instantiation of the C8 threshold characterization at the single
verse of `c8bidx`. -/
theorem claim_C8_local_thresholds_witness :
    ∃ ch vs : Nat, c8ce.1 = natToStr ch ∧ c8ve.1 = natToStr vs ∧
      ∀ r : Str,
        (r ∈ c8ve.2.local_roots.map Prod.fst
          ↔ 2 ≤ inVerseRootCount (verse_stats_of c8bidx c8lex) (make_verse_id c8be.1 ch vs) r
            ∧ ∃ pu, min_by_len (verse_to_units_lookup
                  (all_unit_stats c8bidx c8units (verse_stats_of c8bidx c8lex))
                  (make_verse_id c8be.1 ch vs)) = some pu
                ∧ pu ∈ verse_to_units_lookup
                    (all_unit_stats c8bidx c8units (verse_stats_of c8bidx c8lex))
                    (make_verse_id c8be.1 ch vs)
                ∧ (∀ u ∈ verse_to_units_lookup
                      (all_unit_stats c8bidx c8units (verse_stats_of c8bidx c8lex))
                      (make_verse_id c8be.1 ch vs),
                    pu.verses.length ≤ u.verses.length)
                ∧ 3 ≤ unitRootTotal (verse_stats_of c8bidx c8lex) pu r)
        ∧ (r ∈ c8ve.2.local_initials.map Prod.fst
          ↔ 2 ≤ inVerseInitialCount (verse_stats_of c8bidx c8lex) (make_verse_id c8be.1 ch vs) r
            ∧ ∃ pu, min_by_len (verse_to_units_lookup
                  (all_unit_stats c8bidx c8units (verse_stats_of c8bidx c8lex))
                  (make_verse_id c8be.1 ch vs)) = some pu
                ∧ pu ∈ verse_to_units_lookup
                    (all_unit_stats c8bidx c8units (verse_stats_of c8bidx c8lex))
                    (make_verse_id c8be.1 ch vs)
                ∧ (∀ u ∈ verse_to_units_lookup
                      (all_unit_stats c8bidx c8units (verse_stats_of c8bidx c8lex))
                      (make_verse_id c8be.1 ch vs),
                    pu.verses.length ≤ u.verses.length)
                ∧ 3 ≤ unitInitialTotal (verse_stats_of c8bidx c8lex) pu r) := by
  have hout : build_sound_annotations c8bidx c8units c8lex = [c8be] := rfl
  have hbe : c8be ∈ build_sound_annotations c8bidx c8units c8lex := by
    rw [hout]
    exact List.mem_singleton.2 rfl
  have hce : c8ce ∈ c8be.2 := List.mem_singleton.2 rfl
  have hve : c8ve ∈ c8ce.2 := List.mem_singleton.2 rfl
  exact claim_C8_local_thresholds c8bidx c8units c8lex c8be hbe c8ce hce c8ve hve
